import Mathlib

/-!
# Story Annotator Pro — verification of the annotation core

A shallow embedding of the annotation core of the Story Annotator Pro
repository: the comment data model, the story importer (`handleFileLoad`
together with the shape validation of `FileImporter.processFile`), the
annotation mutators (`handleSaveOrUpdateComment`, `handleDeleteComment`)
and the exporter (`commonExportLogic`), followed by theorems about them.

Modelling conventions:
* JavaScript numbers that the code only ever treats as integers
  (chapter numbers, sentence numbers, `Date.now()` timestamps) become `Int`.
* `Array.prototype.sort` is stable (ES2019); it is modelled by
  `List.insertionSort` with a non-strict (`≤`-style) comparison, which is
  stable in the same sense.
* `generateUniqueId` is modelled by explicit id parameters / id-supply
  functions; properties that need freshness state it as a hypothesis.
* `String.prototype.trim` is modelled by the executable `jsTrim`;
  `split(',')`, `parseInt(·, 10)` and `join(',')` are modelled by
  `splitComma`, `jsParseInt` and `joinComma`.
* JavaScript truthiness on the string/number fields the code actually
  tests is modelled explicitly (`""` and `0` are falsy, `[]` is truthy).
-/

/-! ## JavaScript string helpers -/

/-- Characters removed by `String.prototype.trim`. -/
def jsTrimChars (l : List Char) : List Char :=
  ((l.dropWhile Char.isWhitespace).reverse.dropWhile Char.isWhitespace).reverse

/-- Model of `s.trim()`. -/
def jsTrim (s : String) : String :=
  String.mk (jsTrimChars s.data)

/-- Model of `s.split(',')` on the character list. -/
def splitComma : List Char → List (List Char)
  | [] => [[]]
  | c :: rest =>
    let r := splitComma rest
    if c = ',' then [] :: r
    else
      match r with
      | h :: t => (c :: h) :: t
      | [] => [[c]]

/-- Accumulate the value of a leading digit run. -/
def digitsVal : List Char → Nat → Nat
  | [], acc => acc
  | c :: cs, acc =>
    if c.isDigit then digitsVal cs (acc * 10 + (c.toNat - '0'.toNat)) else acc

/-- Leading decimal-digit run of a character list, `none` if there is none. -/
def leadingDigits : List Char → Option Nat
  | [] => none
  | c :: cs => if c.isDigit then some (digitsVal (c :: cs) 0) else none

/-- Model of `parseInt(s, 10)` applied to an already-trimmed character list:
`none` stands for `NaN`. -/
def jsParseInt (l : List Char) : Option Int :=
  match l with
  | '-' :: rest => (leadingDigits rest).map (fun n => -(n : Int))
  | '+' :: rest => (leadingDigits rest).map (fun n => (n : Int))
  | _ => (leadingDigits l).map (fun n => (n : Int))

/-- Model of `numbers.join(',')`. -/
def joinComma : List Int → String
  | [] => ""
  | [n] => toString n
  | n :: m :: rest => toString n ++ "," ++ joinComma (m :: rest)

/-! ## Data model (src `types`: CommentObject, AnalysisItem, story container) -/

/-- The two comment variants (`type` field of `CommentObject`). -/
inductive CommentType
  | single
  | group
deriving DecidableEq

/-- A stored comment instance. -/
structure CommentObject where
  id : String
  text : String
  type : CommentType
  timestamp : Int
  groupId : Option String
  appliesToSentenceNumbers : Option (List Int)
deriving DecidableEq

/-- A sentence record. -/
structure AnalysisItem where
  id : String
  sentence : String
  chapterNumber : Int
  sentenceNumber : Int
  additionalAnalysis : List (String × String)
  comments : List CommentObject
deriving DecidableEq

/-- The story container: title plus the chapter map.  The JavaScript `Map`
(iteration in key-insertion order, `set` replaces in place) is modelled as an
association list in insertion order. -/
structure ProcessedStoryData where
  title : String
  chapters : List (Int × List AnalysisItem)
deriving DecidableEq

/-- The raw `"The Complete Story"` block; kept verbatim and only passed
through to the export.  Its chapter texts are opaque here. -/
structure RawCompleteStory where
  title : Option String
  chaptersBlob : String
deriving DecidableEq

/-! ## Import documents -/

/-- A JSON literal as it can appear in the extra (pass-through) fields of an
imported entry; `String(v)` display coercion is `JLit.display`. -/
inductive JLit
  | jstr (s : String)
  | jnum (n : Int)
deriving DecidableEq

/-- Model of the `String(v)` coercion the importer applies to extra fields. -/
def JLit.display : JLit → String
  | .jstr s => s
  | .jnum n => toString n

/-- A raw number-typed JSON field: either an actual number or anything else
(string, missing, …) — the code only tests `typeof v === 'number'`. -/
inductive RawNum
  | num (n : Int)
  | nonNum
deriving DecidableEq

/-- A comment inside an imported `all_comments` array. -/
structure RawComment where
  id : Option String
  text : String
  type : CommentType
  timestamp : Option Int
  groupId : Option String
  appliesToSentenceNumbers : Option (List Int)
deriving DecidableEq

/-- A raw imported sentence entry.  The destructuring in `handleFileLoad`
splits the known keys from the rest; `extras` is that rest, so by
construction it never contains the known keys. -/
structure RawAnalysisItem where
  sentence : Option String
  chapterNum : RawNum
  sentenceNum : RawNum
  comment : Option String
  commentAppliesTo : Option String
  all_comments : Option (List RawComment)
  extras : List (String × JLit)
deriving DecidableEq

/-- The `Analysis` field of an imported document: missing (falsy), present
but not an array, or an actual array of entries. -/
inductive AnalysisField
  | absent
  | notList
  | list (items : List RawAnalysisItem)
deriving DecidableEq

/-- A whole imported document. -/
structure ImportedDoc where
  analysis : AnalysisField
  completeStory : Option RawCompleteStory
deriving DecidableEq

/-! ## Importer (`FileImporter.processFile` shape checks + `handleFileLoad`) -/

/-- The deterministic sentence id ``ch${chapterNum}-s${sentenceNum}``. -/
def mkItemId (ch sn : Int) : String :=
  "ch" ++ toString ch ++ "-s" ++ toString sn

/-- `c.id || generateUniqueId()` / `c.timestamp || Date.now()` field filling
for a comment taken from `all_comments`; `g` supplies the generated ids. -/
def fillComment (g : Nat → String) (now : Int) (j : Nat) (c : RawComment) :
    CommentObject :=
  { id := match c.id with
          | some s => if s = "" then g (j + 2) else s
          | none => g (j + 2)
    text := c.text
    type := c.type
    timestamp := match c.timestamp with
          | some t => if t = 0 then now else t
          | none => now
    groupId := c.groupId
    appliesToSentenceNumbers := c.appliesToSentenceNumbers }

/-- `rawAppliesTo.split(',').map(n => parseInt(n.trim(), 10)).filter(n => !isNaN(n))`. -/
def legacyAppliesParse (s : String) : List Int :=
  (splitComma s.data).filterMap (fun cs => jsParseInt (jsTrimChars cs))

/-- Structural `mapIdx` used for the `all_comments` array. -/
def mapCommentsIdx (f : Nat → RawComment → CommentObject) :
    Nat → List RawComment → List CommentObject
  | _, [] => []
  | j, c :: cs => f j c :: mapCommentsIdx f (j + 1) cs

/-- The comment list built for one imported entry: adopt `all_comments` when
it is an array, else synthesize one comment from the legacy fields.
Generated ids for entry slots use the supply `g` (slot 0 = legacy id,
slot 1 = legacy group id, slot `j+2` = id for `all_comments[j]`). -/
def mkComments (g : Nat → String) (now : Int) (r : RawAnalysisItem) :
    List CommentObject :=
  match r.all_comments with
  | some cs => mapCommentsIdx (fillComment g now) 0 cs
  | none =>
    match r.comment with
    | some t =>
      if t = "" then []
      else
        match r.commentAppliesTo with
        | some ap =>
          if ap = "" then
            [{ id := g 0, text := t, type := .single, timestamp := now,
               groupId := none, appliesToSentenceNumbers := none }]
          else
            [{ id := g 0, text := t, type := .group, timestamp := now,
               groupId := some (g 1),
               appliesToSentenceNumbers := some (legacyAppliesParse ap) }]
        | none =>
          [{ id := g 0, text := t, type := .single, timestamp := now,
             groupId := none, appliesToSentenceNumbers := none }]
    | none => []

/-- Per-entry processing of `handleFileLoad`, including its validation throw. -/
def processEntry (g : Nat → String) (now : Int) (r : RawAnalysisItem) :
    Except String AnalysisItem :=
  match r.chapterNum, r.sentenceNum, r.sentence with
  | .num ch, .num sn, some st =>
    if st = "" then .error "Invalid Chapter/Sentence number or missing Sentence."
    else .ok
      { id := mkItemId ch sn
        sentence := st
        chapterNumber := ch
        sentenceNumber := sn
        additionalAnalysis := r.extras.map (fun p => (p.1, p.2.display))
        comments := mkComments g now r }
  | _, _, _ => .error "Invalid Chapter/Sentence number or missing Sentence."

/-- Process the entries in order; the first validation failure aborts the
whole import (the `forEach` body throws). -/
def importItems (g : Nat → Nat → String) (now : Int) :
    Nat → List RawAnalysisItem → Except String (List AnalysisItem)
  | _, [] => .ok []
  | i, r :: rs =>
    match processEntry (g i) now r with
    | .error e => .error e
    | .ok a =>
      match importItems g now (i + 1) rs with
      | .error e => .error e
      | .ok as => .ok (a :: as)

/-- `Map.get/set` style insertion used to build the chapter map: append to
the existing chapter bucket, else add a new bucket at the end. -/
def insertChapter :
    List (Int × List AnalysisItem) → AnalysisItem → List (Int × List AnalysisItem)
  | [], a => [(a.chapterNumber, [a])]
  | (c, ss) :: rest, a =>
    if c = a.chapterNumber then (c, ss ++ [a]) :: rest
    else (c, ss) :: insertChapter rest a

/-- Build the chapter map from the processed entries, in entry order. -/
def buildChapters (l : List AnalysisItem) : List (Int × List AnalysisItem) :=
  l.foldl insertChapter []

/-- The per-chapter sort key `(a, b) => a["Sentence Number"] - b["Sentence Number"]`. -/
def bySentenceNumber (a b : AnalysisItem) : Prop :=
  a.sentenceNumber ≤ b.sentenceNumber

instance : DecidableRel bySentenceNumber :=
  fun a b => inferInstanceAs (Decidable (a.sentenceNumber ≤ b.sentenceNumber))

/-- Sort every chapter's sentence list by sentence number ascending. -/
def sortChapters (m : List (Int × List AnalysisItem)) :
    List (Int × List AnalysisItem) :=
  m.map (fun p => (p.1, List.insertionSort bySentenceNumber p.2))

/-- The whole import: the shape checks of `FileImporter.processFile`
(`Analysis` present, `"The Complete Story"` present with a truthy `Title`,
`Analysis` an array) followed by the per-entry processing of
`handleFileLoad`.  On success it returns the story container and the raw
complete-story block kept for export. -/
def importStory (doc : ImportedDoc) (g : Nat → Nat → String) (now : Int) :
    Except String (ProcessedStoryData × RawCompleteStory) :=
  match doc.analysis with
  | .absent => .error "Invalid story format: Missing required fields."
  | .notList =>
    match doc.completeStory with
    | none => .error "Invalid story format: Missing required fields."
    | some rcs =>
      match rcs.title with
      | none => .error "Invalid story format: Missing required fields."
      | some t =>
        if t = "" then .error "Invalid story format: Missing required fields."
        else .error "Invalid story format: 'Analysis' must be an array."
  | .list items =>
    match doc.completeStory with
    | none => .error "Invalid story format: Missing required fields."
    | some rcs =>
      match rcs.title with
      | none => .error "Invalid story format: Missing required fields."
      | some t =>
        if t = "" then .error "Invalid story format: Missing required fields."
        else
          (importItems g now 0 items).map
            (fun as => ({ title := t, chapters := sortChapters (buildChapters as) }, rcs))

deriving instance DecidableEq for Except

/-! ## Traversal helpers -/

/-- All sentences of a chapter map, in `Map` iteration order. -/
def sentencesOf (m : List (Int × List AnalysisItem)) : List AnalysisItem :=
  m.foldr (fun p acc => p.2 ++ acc) []

/-- All comments of a sentence list, in order. -/
def commentsOfSentences (l : List AnalysisItem) : List CommentObject :=
  l.foldr (fun s acc => s.comments ++ acc) []

/-- Every comment instance in the container. -/
def allComments (sd : ProcessedStoryData) : List CommentObject :=
  commentsOfSentences (sentencesOf sd.chapters)

/-! ## Application state (`App` component state relevant to loading) -/

/-- The two pieces of application state that hold the loaded story. -/
structure AppState where
  storyData : Option ProcessedStoryData
  originalCompleteStory : Option RawCompleteStory
deriving DecidableEq

/-- State transition performed by loading a file: on success
`handleFileLoad` installs the new story and retained block; on any failure
(`FileImporter` shape error via `handleProcessingError`, or the `catch`
block of `handleFileLoad`) both are set to `null`. -/
def appLoadFile (st : AppState) (doc : ImportedDoc) (g : Nat → Nat → String)
    (now : Int) : AppState :=
  match st, importStory doc g now with
  | _, .ok (sd, ocs) => { storyData := some sd, originalCompleteStory := some ocs }
  | _, .error _ => { storyData := none, originalCompleteStory := none }

/-! ## Annotation mutators (`handleSaveOrUpdateComment`, `handleDeleteComment`) -/

/-- Update a comment if it carries the given group id. -/
def updG (g : String) (tt : String) (now : Int) (c : CommentObject) : CommentObject :=
  if c.groupId = some g then { c with text := tt, timestamp := now } else c

/-- The per-sentence step of the group-edit branch: the source first tests
for the exact edited instance, otherwise for any comment of the group;
either way it rewrites every comment of the group in the sentence. -/
def editGroupSentence (cid g : String) (tt : String) (now : Int)
    (s : AnalysisItem) : AnalysisItem :=
  if s.comments.any (fun c => decide (c.groupId = some g ∧ c.id = cid)) then
    { s with comments := s.comments.map (updG g tt now) }
  else if s.comments.any (fun c => decide (c.groupId = some g)) then
    { s with comments := s.comments.map (updG g tt now) }
  else s

/-- Update a comment if it has the given comment id. -/
def updC (cid : String) (tt : String) (now : Int) (c : CommentObject) : CommentObject :=
  if c.id = cid then { c with text := tt, timestamp := now } else c

/-- `findIndex` + update-at-index over a sentence list: rewrite the matching
comments of the first sentence that contains the comment id. -/
def updFirstSentence (cid : String) (tt : String) (now : Int) :
    List AnalysisItem → List AnalysisItem
  | [] => []
  | s :: ss =>
    if s.comments.any (fun c => decide (c.id = cid)) then
      { s with comments := s.comments.map (updC cid tt now) } :: ss
    else s :: updFirstSentence cid tt now ss

/-- The single-edit branch: walk the chapter map in insertion order and stop
(`break`) at the first chapter holding a sentence that contains the id. -/
def editSingleChapters (cid : String) (tt : String) (now : Int) :
    List (Int × List AnalysisItem) → List (Int × List AnalysisItem)
  | [] => []
  | (cn, ss) :: rest =>
    if ss.any (fun s => s.comments.any (fun c => decide (c.id = cid))) then
      (cn, updFirstSentence cid tt now ss) :: rest
    else (cn, ss) :: editSingleChapters cid tt now rest

/-- `handleSaveOrUpdateComment` with a non-null `editingCommentDetail`:
blank text is rejected up front; with a group id every instance of the group
is rewritten, without one only the first found instance of the comment id. -/
def editComment (sd : ProcessedStoryData) (cid : String) (gid : Option String)
    (tx : String) (now : Int) : ProcessedStoryData :=
  if jsTrim tx = "" then sd
  else
    match gid with
    | some g =>
      { sd with chapters :=
          sd.chapters.map (fun p => (p.1, p.2.map (editGroupSentence cid g (jsTrim tx) now))) }
    | none => { sd with chapters := editSingleChapters cid (jsTrim tx) now sd.chapters }

/-- Append a comment to the first sentence with the given id. -/
def appendToItem (itemId : String) (c : CommentObject) :
    List AnalysisItem → List AnalysisItem
  | [] => []
  | s :: ss =>
    if s.id = itemId then { s with comments := s.comments ++ [c] } :: ss
    else s :: appendToItem itemId c ss

/-- `newChaptersMap.get(chapterNum)`. -/
def lookupChapter (m : List (Int × List AnalysisItem)) (cn : Int) :
    Option (List AnalysisItem) :=
  (m.find? (fun p => decide (p.1 = cn))).map Prod.snd

/-- `newChaptersMap.set(chapterNum, sentences)` for an existing key. -/
def setChapter (m : List (Int × List AnalysisItem)) (cn : Int)
    (ss : List AnalysisItem) : List (Int × List AnalysisItem) :=
  m.map (fun p => if p.1 = cn then (cn, ss) else p)

/-- `handleSaveOrUpdateComment` adding a new comment in single mode: append
one fresh `single` comment to the designated sentence of the designated
chapter; silently unchanged when the text is blank or the target is absent. -/
def addSingleComment (sd : ProcessedStoryData) (chNum : Int) (itemId : String)
    (tx : String) (cid : String) (now : Int) : ProcessedStoryData :=
  if jsTrim tx = "" then sd
  else
    match lookupChapter sd.chapters chNum with
    | none => sd
    | some ss =>
      if ss.any (fun s => decide (s.id = itemId)) then
        let newC : CommentObject :=
          { id := cid, text := jsTrim tx, type := .single, timestamp := now,
            groupId := none, appliesToSentenceNumbers := none }
        { sd with chapters := setChapter sd.chapters chNum (appendToItem itemId newC ss) }
      else sd

/-- Bulk edit modes of the modal. -/
inductive EditMode
  | single
  | mass
  | group
deriving DecidableEq

/-- First sentence with the given id anywhere in the map, returning its
sentence number, or the sentinel `-1` when absent. -/
def findSentenceNumber (m : List (Int × List AnalysisItem)) (tid : String) : Int :=
  match (sentencesOf m).find? (fun s => decide (s.id = tid)) with
  | some s => s.sentenceNumber
  | none => -1

/-- The sentence-number list shared by a group addition:
`targets.map(lookup or -1).filter(n => n !== -1).sort((a,b) => a-b)`. -/
def groupNums (m : List (Int × List AnalysisItem)) (targets : List String) :
    List Int :=
  List.insertionSort (· ≤ ·)
    ((targets.map (findSentenceNumber m)).filter (fun n => decide (n ≠ -1)))

/-- Append a comment to the first sentence with the given id, walking the
chapter map in insertion order and stopping at the first hit (`break`). -/
def appendFirstChapter (tid : String) (c : CommentObject) :
    List (Int × List AnalysisItem) → List (Int × List AnalysisItem)
  | [] => []
  | (cn, ss) :: rest =>
    if ss.any (fun s => decide (s.id = tid)) then (cn, appendToItem tid c ss) :: rest
    else (cn, ss) :: appendFirstChapter tid c rest

/-- The bulk `forEach` over the selected ids, paired with the generated
comment id for each target. -/
def bulkGo (mk : String → CommentObject) :
    List (String × String) → List (Int × List AnalysisItem) →
    List (Int × List AnalysisItem)
  | [], m => m
  | (tid, cid) :: rest, m => bulkGo mk rest (appendFirstChapter tid (mk cid) m)

/-- The `newComment` object literal of the bulk branch. -/
def bulkComment (mode : EditMode) (tx : String) (gid : String)
    (nums : Option (List Int)) (now : Int) (cid : String) : CommentObject :=
  { id := cid
    text := jsTrim tx
    type := if mode = EditMode.group then .group else .single
    timestamp := now
    groupId := if mode = EditMode.group then some gid else none
    appliesToSentenceNumbers := nums }

/-- `handleSaveOrUpdateComment` adding a new comment in mass or group mode
(the `editMode === 'mass' || editMode === 'group'` branch).  `gid` is the
group id generated for a group addition (unused in mass mode), `cids` the
per-target generated comment ids in selection order. -/
def addBulkComment (sd : ProcessedStoryData) (mode : EditMode)
    (targets : List String) (tx : String) (gid : String) (cids : List String)
    (now : Int) : ProcessedStoryData :=
  if jsTrim tx = "" then sd
  else if mode = EditMode.single then sd
  else if targets.isEmpty then sd
  else
    { sd with chapters := bulkGo (bulkComment mode tx gid (if mode = EditMode.group then some (groupNums sd.chapters targets) else none) now) (targets.zip cids) sd.chapters }

/-- `handleDeleteComment`: locate the comment in the sentence with the given
item id (first such sentence in map order). -/
def findDeleteTarget (sd : ProcessedStoryData) (itemId cid : String) :
    Option CommentObject :=
  match (sentencesOf sd.chapters).find? (fun s => decide (s.id = itemId)) with
  | some s => s.comments.find? (fun c => decide (c.id = cid))
  | none => none

/-- Drop every comment of a group from one sentence. -/
def delGroupSentence (g : String) (s : AnalysisItem) : AnalysisItem :=
  { s with comments := s.comments.filter (fun c => decide (c.groupId ≠ some g)) }

/-- Drop the comment id from the sentence with the given item id. -/
def delInSentences (itemId cid : String) : List AnalysisItem → List AnalysisItem
  | [] => []
  | s :: ss =>
    if s.id = itemId then
      { s with comments := s.comments.filter (fun c => decide (c.id ≠ cid)) } :: ss
    else s :: delInSentences itemId cid ss

/-- Walk the chapter map, delete in the first chapter that has the sentence,
then stop (`break`). -/
def delFirstChapter (itemId cid : String) :
    List (Int × List AnalysisItem) → List (Int × List AnalysisItem)
  | [] => []
  | (cn, ss) :: rest =>
    if ss.any (fun s => decide (s.id = itemId)) then
      (cn, delInSentences itemId cid ss) :: rest
    else (cn, ss) :: delFirstChapter itemId cid rest

/-- `handleDeleteComment`: a `group`-typed comment with a truthy group id
tears down the whole group everywhere; anything else (including a missing
target) deletes only in the owning sentence. -/
def deleteComment (sd : ProcessedStoryData) (itemId cid : String) :
    ProcessedStoryData :=
  match findDeleteTarget sd itemId cid with
  | some c =>
    if c.type = CommentType.group then
      match c.groupId with
      | some g =>
        if g = "" then { sd with chapters := delFirstChapter itemId cid sd.chapters }
        else
          { sd with chapters :=
              sd.chapters.map (fun p => (p.1, p.2.map (delGroupSentence g))) }
      | none => { sd with chapters := delFirstChapter itemId cid sd.chapters }
    else { sd with chapters := delFirstChapter itemId cid sd.chapters }
  | none => { sd with chapters := delFirstChapter itemId cid sd.chapters }

/-! ## Exporter (`commonExportLogic`) -/

/-- The comparison behind `[...comments].sort((a, b) => b.timestamp - a.timestamp)`:
descending by timestamp, stable on ties. -/
def tsGE (a b : CommentObject) : Prop :=
  b.timestamp ≤ a.timestamp

instance : DecidableRel tsGE :=
  fun a b => inferInstanceAs (Decidable (b.timestamp ≤ a.timestamp))

/-- The "latest" comment of a sentence: head of the stably
descending-by-timestamp sorted comment list, `null` when there is none. -/
def latestComment (cs : List CommentObject) : Option CommentObject :=
  (List.insertionSort tsGE cs).head?

/-- The derived legacy `comment` field: the latest comment's text if that is
truthy, else omitted. -/
def legacyCommentText (cs : List CommentObject) : Option String :=
  match latestComment cs with
  | some c => if c.text = "" then none else some c.text
  | none => none

/-- The derived legacy `comment applies to sentences` field: present only
when the latest comment is `group`-typed with a present sentence-number list
whose comma-join is truthy. -/
def legacyAppliesField (cs : List CommentObject) : Option String :=
  match latestComment cs with
  | some c =>
    if c.type = CommentType.group then
      match c.appliesToSentenceNumbers with
      | some l => if joinComma l = "" then none else some (joinComma l)
      | none => none
    else none
  | none => none

/-- One record of the simple export. -/
structure SimpleExportItem where
  sentence : String
  sentenceNumber : Int
  comment : Option String
  commentAppliesTo : Option String
deriving DecidableEq

/-- Simple-export record of one sentence. -/
def toSimpleItem (it : AnalysisItem) : SimpleExportItem :=
  { sentence := it.sentence
    sentenceNumber := it.sentenceNumber
    comment := legacyCommentText it.comments
    commentAppliesTo := legacyAppliesField it.comments }

/-- Simple-export ordering: sentence number only (chapters collapse). -/
def bySimpleOrder (a b : SimpleExportItem) : Prop :=
  a.sentenceNumber ≤ b.sentenceNumber

instance : DecidableRel bySimpleOrder :=
  fun a b => inferInstanceAs (Decidable (a.sentenceNumber ≤ b.sentenceNumber))

/-- `commonExportLogic(true)`: the simple export document. -/
def exportSimple (sd : ProcessedStoryData) : List SimpleExportItem :=
  List.insertionSort bySimpleOrder ((sentencesOf sd.chapters).map toSimpleItem)

/-- Clean re-serialization of one stored comment for the full export. -/
def toRawComment (c : CommentObject) : RawComment :=
  { id := some c.id
    text := c.text
    type := c.type
    timestamp := some c.timestamp
    groupId := c.groupId
    appliesToSentenceNumbers := c.appliesToSentenceNumbers }

/-- Full-export record of one sentence, in the raw imported-entry shape so
that a full export is itself an importable document. -/
def toExportRaw (it : AnalysisItem) : RawAnalysisItem :=
  { sentence := some it.sentence
    chapterNum := .num it.chapterNumber
    sentenceNum := .num it.sentenceNumber
    comment := legacyCommentText it.comments
    commentAppliesTo := legacyAppliesField it.comments
    all_comments := some (it.comments.map toRawComment)
    extras := it.additionalAnalysis.map (fun p => (p.1, JLit.jstr p.2)) }

/-- Chapter number an export record is sorted by (always present on records
produced by the exporter). -/
def rawChapterNum (r : RawAnalysisItem) : Int :=
  match r.chapterNum with
  | .num n => n
  | .nonNum => 0

/-- Sentence number an export record is sorted by. -/
def rawSentenceNum (r : RawAnalysisItem) : Int :=
  match r.sentenceNum with
  | .num n => n
  | .nonNum => 0

/-- Full-export ordering: chapter number ascending, then sentence number. -/
def byExportOrder (a b : RawAnalysisItem) : Prop :=
  rawChapterNum a < rawChapterNum b ∨
    (rawChapterNum a = rawChapterNum b ∧ rawSentenceNum a ≤ rawSentenceNum b)

instance : DecidableRel byExportOrder :=
  fun a b => inferInstanceAs
    (Decidable (rawChapterNum a < rawChapterNum b ∨
      (rawChapterNum a = rawChapterNum b ∧ rawSentenceNum a ≤ rawSentenceNum b)))

/-- `commonExportLogic(false)`: the full export document. -/
def exportFull (sd : ProcessedStoryData) (ocs : RawCompleteStory) : ImportedDoc :=
  { analysis := .list
      (List.insertionSort byExportOrder ((sentencesOf sd.chapters).map toExportRaw))
    completeStory := some { title := some sd.title, chaptersBlob := ocs.chaptersBlob } }

/-! ## Traversal lemmas -/

theorem sentencesOf_cons (p : Int × List AnalysisItem)
    (rest : List (Int × List AnalysisItem)) :
    sentencesOf (p :: rest) = p.2 ++ sentencesOf rest := rfl

theorem commentsOfSentences_cons (s : AnalysisItem) (l : List AnalysisItem) :
    commentsOfSentences (s :: l) = s.comments ++ commentsOfSentences l := rfl

theorem commentsOfSentences_append (l1 l2 : List AnalysisItem) :
    commentsOfSentences (l1 ++ l2) =
      commentsOfSentences l1 ++ commentsOfSentences l2 := by
  induction l1 with
  | nil => rfl
  | cons s ss ih =>
    simp only [List.cons_append, commentsOfSentences_cons, ih, List.append_assoc]

theorem mem_commentsOfSentences {c : CommentObject} {l : List AnalysisItem} :
    c ∈ commentsOfSentences l ↔ ∃ s ∈ l, c ∈ s.comments := by
  induction l with
  | nil => simp [commentsOfSentences]
  | cons s ss ih =>
    simp only [commentsOfSentences_cons, List.mem_append, ih, List.mem_cons]
    constructor
    · rintro (h | ⟨t, ht, hc⟩)
      · exact ⟨s, Or.inl rfl, h⟩
      · exact ⟨t, Or.inr ht, hc⟩
    · rintro ⟨t, (rfl | ht), hc⟩
      · exact Or.inl hc
      · exact Or.inr ⟨t, ht, hc⟩

theorem mem_sentencesOf {s : AnalysisItem} {m : List (Int × List AnalysisItem)} :
    s ∈ sentencesOf m ↔ ∃ p ∈ m, s ∈ p.2 := by
  induction m with
  | nil => simp [sentencesOf]
  | cons p rest ih =>
    simp only [sentencesOf_cons, List.mem_append, ih, List.mem_cons]
    constructor
    · rintro (h | ⟨q, hq, hs⟩)
      · exact ⟨p, Or.inl rfl, h⟩
      · exact ⟨q, Or.inr hq, hs⟩
    · rintro ⟨q, (rfl | hq), hs⟩
      · exact Or.inl hs
      · exact Or.inr ⟨q, hq, hs⟩

theorem sentencesOf_map_sentences (f : AnalysisItem → AnalysisItem)
    (m : List (Int × List AnalysisItem)) :
    sentencesOf (m.map (fun p => (p.1, p.2.map f))) = (sentencesOf m).map f := by
  induction m with
  | nil => rfl
  | cons p rest ih =>
    simp only [List.map_cons, sentencesOf_cons, ih, List.map_append]

theorem commentsOfSentences_map_comments (h : CommentObject → CommentObject)
    (l : List AnalysisItem) :
    commentsOfSentences (l.map (fun s => { s with comments := s.comments.map h })) =
      (commentsOfSentences l).map h := by
  induction l with
  | nil => rfl
  | cons s ss ih =>
    simp only [List.map_cons, commentsOfSentences_cons, ih, List.map_append]

/-! ## The group-consistency invariant -/

/-- Group consistency on a plain comment list: any two comment instances
carrying the same (present) group id agree on text and timestamp. -/
def InvC (l : List CommentObject) : Prop :=
  ∀ c1 ∈ l, ∀ c2 ∈ l,
    c1.groupId ≠ none → c1.groupId = c2.groupId →
      c1.text = c2.text ∧ c1.timestamp = c2.timestamp

/-- The central invariant of the system, on a story container. -/
def GroupConsistent (sd : ProcessedStoryData) : Prop :=
  InvC (allComments sd)

theorem invC_of_mem_imp {l l' : List CommentObject}
    (hmem : ∀ c ∈ l', c ∈ l ∨ c.groupId = none) (hinv : InvC l) : InvC l' := by
  intro c1 h1 c2 h2 hg hgg
  rcases hmem c1 h1 with h1' | h1'
  · rcases hmem c2 h2 with h2' | h2'
    · exact hinv c1 h1' c2 h2' hg hgg
    · exact absurd (hgg.trans h2') hg
  · exact absurd h1' hg

theorem invC_of_mem_group {l l' : List CommentObject} (gid tt : String) (now : Int)
    (hfresh : ∀ c ∈ l, c.groupId ≠ some gid)
    (hmem : ∀ c ∈ l', c ∈ l ∨ (c.groupId = some gid ∧ c.text = tt ∧ c.timestamp = now))
    (hinv : InvC l) : InvC l' := by
  intro c1 h1 c2 h2 hg hgg
  rcases hmem c1 h1 with h1' | ⟨hg1, ht1, hn1⟩
  · rcases hmem c2 h2 with h2' | ⟨hg2, ht2, hn2⟩
    · exact hinv c1 h1' c2 h2' hg hgg
    · exact absurd (hgg.symm ▸ hg2 : c1.groupId = some gid) (hfresh c1 h1')
  · rcases hmem c2 h2 with h2' | ⟨hg2, ht2, hn2⟩
    · exact absurd (hg1 ▸ hgg.symm : c2.groupId = some gid) (hfresh c2 h2')
    · exact ⟨ht1.trans ht2.symm, hn1.trans hn2.symm⟩

/-- All comments of a chapter map. -/
def chComments (m : List (Int × List AnalysisItem)) : List CommentObject :=
  commentsOfSentences (sentencesOf m)

theorem allComments_eq_chComments (sd : ProcessedStoryData) :
    allComments sd = chComments sd.chapters := rfl

/-! ## The group-edit branch rewrites exactly the group's instances -/

theorem editGroupSentence_eq (cid g tt : String) (now : Int) (s : AnalysisItem) :
    editGroupSentence cid g tt now s =
      { s with comments := s.comments.map (updG g tt now) } := by
  unfold editGroupSentence
  by_cases h1 : s.comments.any (fun c => decide (c.groupId = some g ∧ c.id = cid)) = true
  · rw [if_pos h1]
  · rw [if_neg h1]
    by_cases h2 : s.comments.any (fun c => decide (c.groupId = some g)) = true
    · rw [if_pos h2]
    · rw [if_neg h2]
      have hmapid : s.comments.map (updG g tt now) = s.comments := by
        have hall : ∀ c ∈ s.comments, ¬ c.groupId = some g := by
          intro c hc hcg
          exact h2 (List.any_eq_true.mpr ⟨c, hc, by simp [hcg]⟩)
        calc s.comments.map (updG g tt now)
            = s.comments.map id := by
              apply List.map_congr_left
              intro c hc
              simp [updG, hall c hc]
          _ = s.comments := List.map_id s.comments
      rw [hmapid]

theorem edit_group_allComments (sd : ProcessedStoryData) (cid g : String)
    (tx : String) (now : Int) (h : ¬ jsTrim tx = "") :
    allComments (editComment sd cid (some g) tx now) =
      (allComments sd).map (updG g (jsTrim tx) now) := by
  unfold editComment
  simp only [h, if_false]
  have hfun : editGroupSentence cid g (jsTrim tx) now =
      fun s => { s with comments := s.comments.map (updG g (jsTrim tx) now) } :=
    funext (editGroupSentence_eq cid g (jsTrim tx) now)
  show commentsOfSentences (sentencesOf (sd.chapters.map _)) = _
  rw [hfun, sentencesOf_map_sentences, commentsOfSentences_map_comments]
  rfl

/-! ## Membership lemmas for the mutators -/

theorem mem_updFirstSentence {c : CommentObject} (cid tt : String) (now : Int)
    (l : List AnalysisItem) :
    c ∈ commentsOfSentences (updFirstSentence cid tt now l) →
      c ∈ commentsOfSentences l ∨
        ∃ c0 ∈ commentsOfSentences l, c0.id = cid ∧ c = updC cid tt now c0 := by
  induction l with
  | nil => intro h; exact absurd h (by simp [updFirstSentence, commentsOfSentences])
  | cons s ss ih =>
    unfold updFirstSentence
    by_cases hs : s.comments.any (fun c => decide (c.id = cid)) = true
    · simp only [hs, if_true]
      intro h
      rcases List.mem_append.mp h with h | h
      · rcases List.mem_map.mp h with ⟨c0, hc0, rfl⟩
        by_cases hid : c0.id = cid
        · exact Or.inr ⟨c0, List.mem_append.mpr (Or.inl hc0), hid, rfl⟩
        · left
          have : updC cid tt now c0 = c0 := by simp [updC, hid]
          rw [this]
          exact List.mem_append.mpr (Or.inl hc0)
      · exact Or.inl (List.mem_append.mpr (Or.inr h))
    · simp only [hs, if_false, Bool.false_eq_true]
      intro h
      rcases List.mem_append.mp h with h | h
      · exact Or.inl (List.mem_append.mpr (Or.inl h))
      · rcases ih h with h' | ⟨c0, hc0, hid, rfl⟩
        · exact Or.inl (List.mem_append.mpr (Or.inr h'))
        · exact Or.inr ⟨c0, List.mem_append.mpr (Or.inr hc0), hid, rfl⟩

theorem mem_editSingleChapters {c : CommentObject} (cid tt : String) (now : Int)
    (m : List (Int × List AnalysisItem)) :
    c ∈ chComments (editSingleChapters cid tt now m) →
      c ∈ chComments m ∨
        ∃ c0 ∈ chComments m, c0.id = cid ∧ c = updC cid tt now c0 := by
  induction m with
  | nil => intro h; exact Or.inl h
  | cons p rest ih =>
    rcases p with ⟨cn, ss⟩
    unfold editSingleChapters
    by_cases hs : ss.any (fun s => s.comments.any (fun c => decide (c.id = cid))) = true
    · simp only [hs, if_true]
      intro h
      unfold chComments at h ⊢
      rw [sentencesOf_cons, commentsOfSentences_append] at h ⊢
      rcases List.mem_append.mp h with h | h
      · rcases mem_updFirstSentence cid tt now ss h with h' | ⟨c0, hc0, hid, rfl⟩
        · exact Or.inl (List.mem_append.mpr (Or.inl h'))
        · exact Or.inr ⟨c0, List.mem_append.mpr (Or.inl hc0), hid, rfl⟩
      · exact Or.inl (List.mem_append.mpr (Or.inr h))
    · simp only [hs, if_false, Bool.false_eq_true]
      intro h
      unfold chComments at h ⊢
      rw [sentencesOf_cons, commentsOfSentences_append] at h ⊢
      rcases List.mem_append.mp h with h | h
      · exact Or.inl (List.mem_append.mpr (Or.inl h))
      · rcases ih h with h' | ⟨c0, hc0, hid, rfl⟩
        · exact Or.inl (List.mem_append.mpr (Or.inr h'))
        · exact Or.inr ⟨c0, List.mem_append.mpr (Or.inr hc0), hid, rfl⟩

theorem mem_appendToItem {c : CommentObject} (tid : String) (nc : CommentObject)
    (l : List AnalysisItem) :
    c ∈ commentsOfSentences (appendToItem tid nc l) →
      c ∈ commentsOfSentences l ∨ c = nc := by
  induction l with
  | nil => intro h; exact Or.inl h
  | cons s ss ih =>
    unfold appendToItem
    by_cases hs : s.id = tid
    · simp only [hs, if_pos]
      intro h
      rcases List.mem_append.mp h with h | h
      · rcases List.mem_append.mp h with h | h
        · exact Or.inl (List.mem_append.mpr (Or.inl h))
        · exact Or.inr (List.mem_singleton.mp h)
      · exact Or.inl (List.mem_append.mpr (Or.inr h))
    · simp only [hs, if_neg, if_false]
      intro h
      rcases List.mem_append.mp h with h | h
      · exact Or.inl (List.mem_append.mpr (Or.inl h))
      · rcases ih h with h' | h'
        · exact Or.inl (List.mem_append.mpr (Or.inr h'))
        · exact Or.inr h'

theorem mem_appendFirstChapter {c : CommentObject} (tid : String)
    (nc : CommentObject) (m : List (Int × List AnalysisItem)) :
    c ∈ chComments (appendFirstChapter tid nc m) →
      c ∈ chComments m ∨ c = nc := by
  induction m with
  | nil => intro h; exact Or.inl h
  | cons p rest ih =>
    rcases p with ⟨cn, ss⟩
    unfold appendFirstChapter
    by_cases hs : ss.any (fun s => decide (s.id = tid)) = true
    · simp only [hs, if_true]
      intro h
      unfold chComments at h ⊢
      rw [sentencesOf_cons, commentsOfSentences_append] at h ⊢
      rcases List.mem_append.mp h with h | h
      · rcases mem_appendToItem tid nc ss h with h' | h'
        · exact Or.inl (List.mem_append.mpr (Or.inl h'))
        · exact Or.inr h'
      · exact Or.inl (List.mem_append.mpr (Or.inr h))
    · simp only [hs, if_false, Bool.false_eq_true]
      intro h
      unfold chComments at h ⊢
      rw [sentencesOf_cons, commentsOfSentences_append] at h ⊢
      rcases List.mem_append.mp h with h | h
      · exact Or.inl (List.mem_append.mpr (Or.inl h))
      · rcases ih h with h' | h'
        · exact Or.inl (List.mem_append.mpr (Or.inr h'))
        · exact Or.inr h'

theorem mem_bulkGo {c : CommentObject} (mk : String → CommentObject)
    (pairs : List (String × String)) (m : List (Int × List AnalysisItem)) :
    c ∈ chComments (bulkGo mk pairs m) →
      c ∈ chComments m ∨ ∃ cid, c = mk cid := by
  induction pairs generalizing m with
  | nil => intro h; exact Or.inl h
  | cons q rest ih =>
    rcases q with ⟨tid, cid⟩
    unfold bulkGo
    intro h
    rcases ih (appendFirstChapter tid (mk cid) m) h with h' | h'
    · rcases mem_appendFirstChapter tid (mk cid) m h' with h'' | h''
      · exact Or.inl h''
      · exact Or.inr ⟨cid, h''⟩
    · exact Or.inr h'

theorem commentsOfSentences_map_filter (q : CommentObject → Bool)
    (l : List AnalysisItem) :
    commentsOfSentences (l.map (fun s => { s with comments := s.comments.filter q })) =
      (commentsOfSentences l).filter q := by
  induction l with
  | nil => rfl
  | cons s ss ih =>
    simp only [List.map_cons, commentsOfSentences_cons, ih, List.filter_append]

theorem delGroup_allComments (m : List (Int × List AnalysisItem)) (g : String) :
    chComments (m.map (fun p => (p.1, p.2.map (delGroupSentence g)))) =
      (chComments m).filter (fun c => decide (c.groupId ≠ some g)) := by
  unfold chComments
  have hfun : delGroupSentence g = fun s =>
      { s with comments := s.comments.filter (fun c => decide (c.groupId ≠ some g)) } := rfl
  rw [hfun, sentencesOf_map_sentences, commentsOfSentences_map_filter]

theorem mem_delInSentences {c : CommentObject} (itemId cid : String)
    (l : List AnalysisItem) :
    c ∈ commentsOfSentences (delInSentences itemId cid l) →
      c ∈ commentsOfSentences l := by
  induction l with
  | nil => exact fun h => h
  | cons s ss ih =>
    unfold delInSentences
    by_cases hs : s.id = itemId
    · rw [if_pos hs]
      intro h
      rcases List.mem_append.mp h with h | h
      · exact List.mem_append.mpr (Or.inl (List.mem_of_mem_filter h))
      · exact List.mem_append.mpr (Or.inr h)
    · rw [if_neg hs]
      intro h
      rcases List.mem_append.mp h with h | h
      · exact List.mem_append.mpr (Or.inl h)
      · exact List.mem_append.mpr (Or.inr (ih h))

theorem mem_delFirstChapter {c : CommentObject} (itemId cid : String)
    (m : List (Int × List AnalysisItem)) :
    c ∈ chComments (delFirstChapter itemId cid m) → c ∈ chComments m := by
  induction m with
  | nil => exact fun h => h
  | cons p rest ih =>
    rcases p with ⟨cn, ss⟩
    unfold delFirstChapter
    by_cases hs : ss.any (fun s => decide (s.id = itemId)) = true
    · rw [if_pos hs]
      intro h
      unfold chComments at h ⊢
      rw [sentencesOf_cons, commentsOfSentences_append] at h ⊢
      rcases List.mem_append.mp h with h | h
      · exact List.mem_append.mpr (Or.inl (mem_delInSentences itemId cid ss h))
      · exact List.mem_append.mpr (Or.inr h)
    · rw [if_neg hs]
      intro h
      unfold chComments at h ⊢
      rw [sentencesOf_cons, commentsOfSentences_append] at h ⊢
      rcases List.mem_append.mp h with h | h
      · exact List.mem_append.mpr (Or.inl h)
      · exact List.mem_append.mpr (Or.inr (ih h))

theorem mem_deleteComment {c : CommentObject} (sd : ProcessedStoryData)
    (itemId cid : String) :
    c ∈ allComments (deleteComment sd itemId cid) → c ∈ allComments sd := by
  unfold deleteComment
  cases hfind : findDeleteTarget sd itemId cid with
  | none => exact fun h => mem_delFirstChapter itemId cid sd.chapters h
  | some c0 =>
    dsimp only
    by_cases hty : c0.type = CommentType.group
    · rw [if_pos hty]
      cases hg : c0.groupId with
      | none => exact fun h => mem_delFirstChapter itemId cid sd.chapters h
      | some g =>
        dsimp only
        by_cases hge : g = ""
        · rw [if_pos hge]
          exact fun h => mem_delFirstChapter itemId cid sd.chapters h
        · rw [if_neg hge]
          intro h
          have h2 : c ∈ chComments
              (sd.chapters.map (fun p => (p.1, p.2.map (delGroupSentence g)))) := h
          rw [delGroup_allComments] at h2
          exact List.mem_of_mem_filter h2
    · rw [if_neg hty]
      exact fun h => mem_delFirstChapter itemId cid sd.chapters h

theorem mem_chComments_setChapter {c : CommentObject}
    (m : List (Int × List AnalysisItem)) (cn : Int) (ss' : List AnalysisItem) :
    c ∈ chComments (setChapter m cn ss') →
      c ∈ chComments m ∨ c ∈ commentsOfSentences ss' := by
  induction m with
  | nil => exact fun h => Or.inl h
  | cons p rest ih =>
    unfold setChapter
    intro h
    unfold chComments at h ⊢
    rw [List.map_cons, sentencesOf_cons, commentsOfSentences_append] at h
    rw [sentencesOf_cons, commentsOfSentences_append]
    rcases List.mem_append.mp h with h | h
    · by_cases hp : p.1 = cn
      · rw [if_pos hp] at h
        exact Or.inr h
      · rw [if_neg hp] at h
        exact Or.inl (List.mem_append.mpr (Or.inl h))
    · rcases ih h with h' | h'
      · exact Or.inl (List.mem_append.mpr (Or.inr h'))
      · exact Or.inr h'

theorem commentsOf_lookup_subset {c : CommentObject}
    {m : List (Int × List AnalysisItem)} {cn : Int} {ss : List AnalysisItem}
    (hlk : lookupChapter m cn = some ss) (hc : c ∈ commentsOfSentences ss) :
    c ∈ chComments m := by
  unfold lookupChapter at hlk
  rcases Option.map_eq_some'.mp hlk with ⟨p, hfind, hsnd⟩
  have hp : p ∈ m := List.mem_of_find?_eq_some hfind
  rcases mem_commentsOfSentences.mp hc with ⟨s, hs, hcs⟩
  exact mem_commentsOfSentences.mpr
    ⟨s, mem_sentencesOf.mpr ⟨p, hp, hsnd ▸ hs⟩, hcs⟩

theorem mem_addSingleComment {c : CommentObject} (sd : ProcessedStoryData)
    (chNum : Int) (itemId tx cid : String) (now : Int) :
    c ∈ allComments (addSingleComment sd chNum itemId tx cid now) →
      c ∈ allComments sd ∨ c.groupId = none := by
  unfold addSingleComment
  by_cases ht : jsTrim tx = ""
  · rw [if_pos ht]; exact fun h => Or.inl h
  · rw [if_neg ht]
    cases hlk : lookupChapter sd.chapters chNum with
    | none => exact fun h => Or.inl h
    | some ss =>
      dsimp only
      by_cases hany : ss.any (fun s => decide (s.id = itemId)) = true
      · rw [if_pos hany]
        intro h
        rcases mem_chComments_setChapter sd.chapters chNum _ h with h' | h'
        · exact Or.inl h'
        · rcases mem_appendToItem itemId _ ss h' with h'' | h''
          · exact Or.inl (commentsOf_lookup_subset hlk h'')
          · right; rw [h'']
      · rw [if_neg hany]
        exact fun h => Or.inl h

theorem updG_groupId (g tt : String) (now : Int) (c : CommentObject) :
    (updG g tt now c).groupId = c.groupId := by
  unfold updG; split <;> rfl

theorem updC_groupId (cid tt : String) (now : Int) (c : CommentObject) :
    (updC cid tt now c).groupId = c.groupId := by
  unfold updC; split <;> rfl

theorem invC_map_updG (l : List CommentObject) (g tt : String) (now : Int)
    (hinv : InvC l) : InvC (l.map (updG g tt now)) := by
  intro c1 h1 c2 h2 hg hgg
  rcases List.mem_map.mp h1 with ⟨b1, hb1, rfl⟩
  rcases List.mem_map.mp h2 with ⟨b2, hb2, rfl⟩
  rw [updG_groupId] at hg
  rw [updG_groupId, updG_groupId] at hgg
  by_cases e1 : b1.groupId = some g
  · have e2 : b2.groupId = some g := hgg ▸ e1
    have u1 : updG g tt now b1 = { b1 with text := tt, timestamp := now } := by
      unfold updG; rw [if_pos e1]
    have u2 : updG g tt now b2 = { b2 with text := tt, timestamp := now } := by
      unfold updG; rw [if_pos e2]
    rw [u1, u2]
    exact ⟨rfl, rfl⟩
  · have e2 : ¬ b2.groupId = some g := fun h => e1 (hgg.trans h)
    have u1 : updG g tt now b1 = b1 := by unfold updG; rw [if_neg e1]
    have u2 : updG g tt now b2 = b2 := by unfold updG; rw [if_neg e2]
    rw [u1, u2]
    exact hinv b1 hb1 b2 hb2 hg hgg

theorem mem_addBulkComment {c : CommentObject} (sd : ProcessedStoryData)
    (mode : EditMode) (targets : List String) (tx gid : String)
    (cids : List String) (now : Int) :
    c ∈ allComments (addBulkComment sd mode targets tx gid cids now) →
      c ∈ allComments sd ∨
        ∃ cid nums, c = bulkComment mode tx gid nums now cid := by
  unfold addBulkComment
  by_cases ht : jsTrim tx = ""
  · rw [if_pos ht]; exact fun h => Or.inl h
  · rw [if_neg ht]
    by_cases hm : mode = EditMode.single
    · rw [if_pos hm]; exact fun h => Or.inl h
    · rw [if_neg hm]
      by_cases he : targets.isEmpty = true
      · rw [if_pos he]; exact fun h => Or.inl h
      · rw [if_neg he]
        intro h
        rcases mem_bulkGo _ _ _ h with h' | ⟨cid', hcid⟩
        · exact Or.inl h'
        · exact Or.inr ⟨cid', _, hcid⟩

theorem bulkComment_mass_groupId (tx gid : String) (nums : Option (List Int))
    (now : Int) (cid : String) :
    (bulkComment EditMode.mass tx gid nums now cid).groupId = none := rfl

theorem bulkComment_group_fields (tx gid : String) (nums : Option (List Int))
    (now : Int) (cid : String) :
    (bulkComment EditMode.group tx gid nums now cid).groupId = some gid ∧
    (bulkComment EditMode.group tx gid nums now cid).text = jsTrim tx ∧
    (bulkComment EditMode.group tx gid nums now cid).timestamp = now :=
  ⟨rfl, rfl, rfl⟩

/-- **C1.** Group-consistency invariant: all comment instances sharing a
group id agree on text and timestamp, and this predicate is preserved by
every mutator — adding a single comment, mass and group bulk additions
(group additions under the freshness of the generated group id), editing a
comment identified the way the operation identifies it (with its group id
for a group comment, by bare comment id only for comments that carry no
group id), and deleting a comment. -/
theorem c1_group_invariant_preserved (sd : ProcessedStoryData)
    (hinv : GroupConsistent sd) :
    (∀ chNum itemId tx cid now,
        GroupConsistent (addSingleComment sd chNum itemId tx cid now)) ∧
    (∀ targets tx gid cids now,
        GroupConsistent (addBulkComment sd EditMode.mass targets tx gid cids now)) ∧
    (∀ targets tx gid cids now,
        (∀ c ∈ allComments sd, c.groupId ≠ some gid) →
        GroupConsistent (addBulkComment sd EditMode.group targets tx gid cids now)) ∧
    (∀ cid g tx now, GroupConsistent (editComment sd cid (some g) tx now)) ∧
    (∀ cid tx now,
        (∀ c ∈ allComments sd, c.id = cid → c.groupId = none) →
        GroupConsistent (editComment sd cid none tx now)) ∧
    (∀ itemId cid, GroupConsistent (deleteComment sd itemId cid)) := by
  refine ⟨?_, ?_, ?_, ?_, ?_, ?_⟩
  · intro chNum itemId tx cid now
    exact invC_of_mem_imp
      (fun c hc => (mem_addSingleComment sd chNum itemId tx cid now hc).imp id id) hinv
  · intro targets tx gid cids now
    apply invC_of_mem_imp _ hinv
    intro c hc
    rcases mem_addBulkComment sd EditMode.mass targets tx gid cids now hc with h | ⟨cid', nums, rfl⟩
    · exact Or.inl h
    · exact Or.inr (bulkComment_mass_groupId tx gid nums now cid')
  · intro targets tx gid cids now hfresh
    apply invC_of_mem_group gid (jsTrim tx) now hfresh _ hinv
    intro c hc
    rcases mem_addBulkComment sd EditMode.group targets tx gid cids now hc with h | ⟨cid', nums, rfl⟩
    · exact Or.inl h
    · exact Or.inr (bulkComment_group_fields tx gid nums now cid')
  · intro cid g tx now
    by_cases ht : jsTrim tx = ""
    · have : editComment sd cid (some g) tx now = sd := by
        unfold editComment; rw [if_pos ht]
      rw [this]
      exact hinv
    · unfold GroupConsistent
      rw [edit_group_allComments sd cid g tx now ht]
      exact invC_map_updG _ _ _ _ hinv
  · intro cid tx now hid
    by_cases ht : jsTrim tx = ""
    · have : editComment sd cid none tx now = sd := by
        unfold editComment; rw [if_pos ht]
      rw [this]
      exact hinv
    · apply invC_of_mem_imp _ hinv
      intro c hc
      have hc' : c ∈ chComments (editSingleChapters cid (jsTrim tx) now sd.chapters) := by
        have : editComment sd cid none tx now =
            { sd with chapters := editSingleChapters cid (jsTrim tx) now sd.chapters } := by
          unfold editComment; rw [if_neg ht]
        rw [this] at hc
        exact hc
      rcases mem_editSingleChapters cid (jsTrim tx) now sd.chapters hc' with h | ⟨c0, hc0, hcid, rfl⟩
      · exact Or.inl h
      · right
        rw [updC_groupId]
        exact hid c0 hc0 hcid
  · intro itemId cid
    exact invC_of_mem_imp (fun c hc => Or.inl (mem_deleteComment sd itemId cid hc)) hinv

instance (l : List CommentObject) : Decidable (InvC l) :=
  inferInstanceAs (Decidable (∀ c1 ∈ l, ∀ c2 ∈ l,
    c1.groupId ≠ none → c1.groupId = c2.groupId →
      c1.text = c2.text ∧ c1.timestamp = c2.timestamp))

instance (sd : ProcessedStoryData) : Decidable (GroupConsistent sd) :=
  inferInstanceAs (Decidable (InvC (allComments sd)))

/-- Concrete container used by several witnesses: one chapter, two
sentences, a two-instance group comment `G` plus one single comment. -/
def wsItem1 : AnalysisItem :=
  { id := "ch1-s1", sentence := "First.", chapterNumber := 1, sentenceNumber := 1,
    additionalAnalysis := [("mood", "calm")],
    comments :=
      [ { id := "c1", text := "hello", type := .group, timestamp := 10,
          groupId := some "G", appliesToSentenceNumbers := some [1, 2] }
      , { id := "c3", text := "solo", type := .single, timestamp := 11,
          groupId := none, appliesToSentenceNumbers := none } ] }

/-- Second sentence of the witness container. -/
def wsItem2 : AnalysisItem :=
  { id := "ch1-s2", sentence := "Second.", chapterNumber := 1, sentenceNumber := 2,
    additionalAnalysis := [],
    comments :=
      [ { id := "c2", text := "hello", type := .group, timestamp := 10,
          groupId := some "G", appliesToSentenceNumbers := some [1, 2] } ] }

/-- The witness container. -/
def wStory : ProcessedStoryData :=
  { title := "T", chapters := [(1, [wsItem1, wsItem2])] }

theorem c1_group_invariant_preserved_witness :
    GroupConsistent (addSingleComment wStory 1 "ch1-s1" "x" "c9" 20) ∧
    GroupConsistent (addBulkComment wStory EditMode.mass ["ch1-s1", "ch1-s2"] "x" "GX" ["c4", "c5"] 20) ∧
    GroupConsistent (addBulkComment wStory EditMode.group ["ch1-s1", "ch1-s2"] "x" "G2" ["c6", "c7"] 20) ∧
    GroupConsistent (editComment wStory "c1" (some "G") "y" 21) ∧
    GroupConsistent (editComment wStory "c3" none "z" 22) ∧
    GroupConsistent (deleteComment wStory "ch1-s1" "c1") := by
  have h := c1_group_invariant_preserved wStory (by decide)
  exact ⟨h.1 1 "ch1-s1" "x" "c9" 20,
    h.2.1 ["ch1-s1", "ch1-s2"] "x" "GX" ["c4", "c5"] 20,
    h.2.2.1 ["ch1-s1", "ch1-s2"] "x" "G2" ["c6", "c7"] 20 (by decide),
    h.2.2.2.1 "c1" "G" "y" 21,
    h.2.2.2.2.1 "c3" "z" 22 (by decide),
    h.2.2.2.2.2 "ch1-s1" "c1"⟩

/-- **C3.** Group edit propagation: editing an existing group comment
(identified by comment id and group id) with non-blank text rewrites, in one
transformation of the container, exactly the comment instances sharing that
group id — all of them, across all sentences and chapters — to the trimmed
new text and the edit timestamp, leaving every other comment unchanged. -/
theorem c3_group_edit_propagation (sd : ProcessedStoryData) (cid g : String)
    (tx : String) (now : Int)
    (hblank : jsTrim tx ≠ "")
    (_hexists : ∃ c ∈ allComments sd, c.id = cid ∧ c.groupId = some g) :
    (∀ c ∈ allComments (editComment sd cid (some g) tx now),
        c.groupId = some g → c.text = jsTrim tx ∧ c.timestamp = now) ∧
    allComments (editComment sd cid (some g) tx now) =
      (allComments sd).map (updG g (jsTrim tx) now) := by
  have hmap := edit_group_allComments sd cid g tx now hblank
  refine ⟨?_, hmap⟩
  intro c hc hcg
  rw [hmap] at hc
  rcases List.mem_map.mp hc with ⟨c0, _, rfl⟩
  rw [updG_groupId] at hcg
  have : updG g (jsTrim tx) now c0 = { c0 with text := jsTrim tx, timestamp := now } := by
    unfold updG; rw [if_pos hcg]
  rw [this]
  exact ⟨rfl, rfl⟩

theorem c3_group_edit_propagation_witness :
    allComments (editComment wStory "c1" (some "G") "new note" 21) =
      (allComments wStory).map (updG "G" (jsTrim "new note") 21) :=
  (c3_group_edit_propagation wStory "c1" "G" "new note" 21 (by decide) (by decide)).2

/-! ## Delete: exact characterizations -/

/-- A sentence with its comment list removed — used to state that an
operation leaves the sentence skeleton (ids, text, numbers, extra analysis,
order) untouched. -/
def stripComments (s : AnalysisItem) : AnalysisItem :=
  { s with comments := [] }

theorem skeleton_delInSentences (itemId cid : String) (ss : List AnalysisItem) :
    (delInSentences itemId cid ss).map stripComments = ss.map stripComments := by
  induction ss with
  | nil => rfl
  | cons s rest ih =>
    unfold delInSentences
    by_cases hs : s.id = itemId
    · rw [if_pos hs]
      simp only [List.map_cons]
      exact congrArg _ rfl
    · rw [if_neg hs]
      simp only [List.map_cons, ih]

theorem skeleton_delFirstChapter (itemId cid : String)
    (m : List (Int × List AnalysisItem)) :
    (sentencesOf (delFirstChapter itemId cid m)).map stripComments =
      (sentencesOf m).map stripComments := by
  induction m with
  | nil => rfl
  | cons p rest ih =>
    rcases p with ⟨cn, ss⟩
    unfold delFirstChapter
    by_cases hs : ss.any (fun s => decide (s.id = itemId)) = true
    · rw [if_pos hs]
      rw [sentencesOf_cons, sentencesOf_cons, List.map_append, List.map_append,
        skeleton_delInSentences]
    · rw [if_neg hs]
      rw [sentencesOf_cons, sentencesOf_cons, List.map_append, List.map_append, ih]

theorem no_cid_of_no_itemId (itemId cid : String) (l : List AnalysisItem)
    (hcl : ∀ s ∈ l, ∀ c ∈ s.comments, c.id = cid → s.id = itemId)
    (hno : ∀ s ∈ l, s.id ≠ itemId) :
    ∀ c ∈ commentsOfSentences l, c.id ≠ cid := by
  intro c hc hid
  rcases mem_commentsOfSentences.mp hc with ⟨s, hs, hcs⟩
  exact hno s hs (hcl s hs c hcs hid)

theorem filter_ne_cid_eq_self (cid : String) (l : List CommentObject)
    (h : ∀ c ∈ l, c.id ≠ cid) :
    l.filter (fun c => decide (c.id ≠ cid)) = l :=
  List.filter_eq_self.mpr (fun c hc => by simpa using h c hc)

theorem delInSentences_flatten (itemId cid : String) (ss : List AnalysisItem)
    (hcl : ∀ s ∈ ss, ∀ c ∈ s.comments, c.id = cid → s.id = itemId)
    (hone : ss.countP (fun s => decide (s.id = itemId)) ≤ 1) :
    commentsOfSentences (delInSentences itemId cid ss) =
      (commentsOfSentences ss).filter (fun c => decide (c.id ≠ cid)) := by
  induction ss with
  | nil => rfl
  | cons s rest ih =>
    unfold delInSentences
    rw [commentsOfSentences_cons, List.filter_append]
    by_cases hs : s.id = itemId
    · rw [if_pos hs, commentsOfSentences_cons]
      have hcount : rest.countP (fun s => decide (s.id = itemId)) = 0 := by
        rw [List.countP_cons_of_pos _ _ (by simpa using hs)] at hone
        omega
      have hnone : ∀ t ∈ rest, t.id ≠ itemId := by
        intro t ht
        have := List.countP_eq_zero.mp hcount t ht
        simpa using this
      have hrest : ∀ c ∈ commentsOfSentences rest, c.id ≠ cid :=
        no_cid_of_no_itemId itemId cid rest
          (fun t ht => hcl t (List.mem_cons_of_mem s ht)) hnone
      rw [filter_ne_cid_eq_self cid _ hrest]
    · rw [if_neg hs, commentsOfSentences_cons]
      have hhead : ∀ c ∈ s.comments, c.id ≠ cid := by
        intro c hc hid
        exact hs (hcl s (List.mem_cons_self s rest) c hc hid)
      rw [filter_ne_cid_eq_self cid _ hhead]
      have hone' : rest.countP (fun s => decide (s.id = itemId)) ≤ 1 := by
        simp only [List.countP_cons] at hone
        omega
      rw [ih (fun t ht => hcl t (List.mem_cons_of_mem s ht)) hone']

theorem delFirstChapter_flatten (itemId cid : String)
    (m : List (Int × List AnalysisItem))
    (hcl : ∀ s ∈ sentencesOf m, ∀ c ∈ s.comments, c.id = cid → s.id = itemId)
    (hone : (sentencesOf m).countP (fun s => decide (s.id = itemId)) ≤ 1) :
    chComments (delFirstChapter itemId cid m) =
      (chComments m).filter (fun c => decide (c.id ≠ cid)) := by
  induction m with
  | nil => rfl
  | cons p rest ih =>
    rcases p with ⟨cn, ss⟩
    unfold delFirstChapter
    have hclss : ∀ s ∈ ss, ∀ c ∈ s.comments, c.id = cid → s.id = itemId :=
      fun s hs => hcl s (by rw [sentencesOf_cons]; exact List.mem_append.mpr (Or.inl hs))
    have hclrest : ∀ s ∈ sentencesOf rest, ∀ c ∈ s.comments, c.id = cid → s.id = itemId :=
      fun s hs => hcl s (by rw [sentencesOf_cons]; exact List.mem_append.mpr (Or.inr hs))
    have hcnt : ss.countP (fun s => decide (s.id = itemId)) +
        (sentencesOf rest).countP (fun s => decide (s.id = itemId)) ≤ 1 := by
      have := hone
      rw [sentencesOf_cons, List.countP_append] at this
      exact this
    by_cases hs : ss.any (fun s => decide (s.id = itemId)) = true
    · rw [if_pos hs]
      unfold chComments
      rw [sentencesOf_cons, sentencesOf_cons, commentsOfSentences_append,
        commentsOfSentences_append, List.filter_append]
      have hpos : 1 ≤ ss.countP (fun s => decide (s.id = itemId)) := by
        rcases List.any_eq_true.mp hs with ⟨s, hsmem, hsid⟩
        calc 1 = [s].countP (fun s => decide (s.id = itemId)) := by
              simp [List.countP_cons, hsid]
          _ ≤ ss.countP (fun s => decide (s.id = itemId)) :=
              List.Sublist.countP_le _ ((List.singleton_sublist).mpr hsmem)
      have hrest0 : (sentencesOf rest).countP (fun s => decide (s.id = itemId)) = 0 := by
        omega
      have hnone : ∀ t ∈ sentencesOf rest, t.id ≠ itemId := by
        intro t ht
        have := List.countP_eq_zero.mp hrest0 t ht
        simpa using this
      have hrest : ∀ c ∈ commentsOfSentences (sentencesOf rest), c.id ≠ cid :=
        no_cid_of_no_itemId itemId cid _ hclrest hnone
      rw [filter_ne_cid_eq_self cid _ hrest,
        delInSentences_flatten itemId cid ss hclss (by omega)]
    · rw [if_neg hs]
      unfold chComments
      rw [sentencesOf_cons, sentencesOf_cons, commentsOfSentences_append,
        commentsOfSentences_append, List.filter_append]
      have hnoss : ∀ t ∈ ss, t.id ≠ itemId := by
        intro t ht hid
        exact hs (List.any_eq_true.mpr ⟨t, ht, by simpa using hid⟩)
      have hss : ∀ c ∈ commentsOfSentences ss, c.id ≠ cid :=
        no_cid_of_no_itemId itemId cid ss hclss hnoss
      rw [filter_ne_cid_eq_self cid _ hss]
      have := ih hclrest (by omega)
      unfold chComments at this
      rw [this]

theorem delInSentences_id (itemId cid : String) (ss : List AnalysisItem)
    (h : ∀ s ∈ ss, ∀ c ∈ s.comments, c.id ≠ cid) :
    delInSentences itemId cid ss = ss := by
  induction ss with
  | nil => rfl
  | cons s rest ih =>
    unfold delInSentences
    by_cases hs : s.id = itemId
    · rw [if_pos hs]
      have : s.comments.filter (fun c => decide (c.id ≠ cid)) = s.comments :=
        filter_ne_cid_eq_self cid s.comments (h s (List.mem_cons_self s rest))
      rw [this]
    · rw [if_neg hs, ih (fun t ht => h t (List.mem_cons_of_mem s ht))]

theorem delFirstChapter_id (itemId cid : String)
    (m : List (Int × List AnalysisItem))
    (h : ∀ s ∈ sentencesOf m, ∀ c ∈ s.comments, c.id ≠ cid) :
    delFirstChapter itemId cid m = m := by
  induction m with
  | nil => rfl
  | cons p rest ih =>
    rcases p with ⟨cn, ss⟩
    unfold delFirstChapter
    have hss : ∀ s ∈ ss, ∀ c ∈ s.comments, c.id ≠ cid :=
      fun s hs => h s (by rw [sentencesOf_cons]; exact List.mem_append.mpr (Or.inl hs))
    have hrest : ∀ s ∈ sentencesOf rest, ∀ c ∈ s.comments, c.id ≠ cid :=
      fun s hs => h s (by rw [sentencesOf_cons]; exact List.mem_append.mpr (Or.inr hs))
    by_cases hs : ss.any (fun s => decide (s.id = itemId)) = true
    · rw [if_pos hs, delInSentences_id itemId cid ss hss]
    · rw [if_neg hs, ih hrest]

theorem countP_id_le_one (x : String) (l : List AnalysisItem)
    (h : (l.map AnalysisItem.id).Nodup) :
    l.countP (fun s => decide (s.id = x)) ≤ 1 := by
  induction l with
  | nil => simp
  | cons s rest ih =>
    rw [List.map_cons, List.nodup_cons] at h
    by_cases hs : s.id = x
    · rw [List.countP_cons_of_pos _ _ (by simpa using hs)]
      have hzero : rest.countP (fun s => decide (s.id = x)) = 0 := by
        apply List.countP_eq_zero.mpr
        intro t ht hdec
        have htx : t.id = x := by simpa using hdec
        exact h.1 (List.mem_map.mpr ⟨t, ht, by rw [htx, hs]⟩)
      omega
    · rw [List.countP_cons_of_neg _ _ (by simpa using hs)]
      exact ih h.2

/-- **C4.** Group delete teardown: deleting a `group`-kind comment (with its
group id present) removes every instance of that group from every sentence;
deleting a non-group comment removes exactly the comments with that id from
its one owning sentence (sentence skeletons and all other comments are
untouched); and deleting an id that exists on no comment is a no-op, not an
error. -/
theorem c4_delete_teardown (sd : ProcessedStoryData) (itemId cid : String) :
    (∀ c0, findDeleteTarget sd itemId cid = some c0 →
      c0.type = CommentType.group →
      ∀ g, c0.groupId = some g → g ≠ "" →
      ∀ c ∈ allComments (deleteComment sd itemId cid), c.groupId ≠ some g) ∧
    (∀ c0, findDeleteTarget sd itemId cid = some c0 →
      c0.type ≠ CommentType.group →
      ((sentencesOf sd.chapters).map AnalysisItem.id).Nodup →
      (∀ s ∈ sentencesOf sd.chapters, ∀ c ∈ s.comments, c.id = cid → s.id = itemId) →
      allComments (deleteComment sd itemId cid) =
        (allComments sd).filter (fun c => decide (c.id ≠ cid)) ∧
      (sentencesOf (deleteComment sd itemId cid).chapters).map stripComments =
        (sentencesOf sd.chapters).map stripComments) ∧
    ((∀ s ∈ sentencesOf sd.chapters, ∀ c ∈ s.comments, c.id ≠ cid) →
      deleteComment sd itemId cid = sd) := by
  refine ⟨?_, ?_, ?_⟩
  · intro c0 hfind hty g hg hge
    have hdel : deleteComment sd itemId cid =
        { sd with chapters := sd.chapters.map (fun p => (p.1, p.2.map (delGroupSentence g))) } := by
      unfold deleteComment
      rw [hfind]
      dsimp only
      rw [if_pos hty, hg]
      dsimp only
      rw [if_neg hge]
    intro c hc
    rw [hdel] at hc
    have hc' : c ∈ chComments
        (sd.chapters.map (fun p => (p.1, p.2.map (delGroupSentence g)))) := hc
    rw [delGroup_allComments] at hc'
    have := (List.mem_filter.mp hc').2
    exact of_decide_eq_true this
  · intro c0 hfind hty hnodup hcl
    have hdel : deleteComment sd itemId cid =
        { sd with chapters := delFirstChapter itemId cid sd.chapters } := by
      unfold deleteComment
      rw [hfind]
      dsimp only
      rw [if_neg hty]
    constructor
    · rw [hdel]
      exact delFirstChapter_flatten itemId cid sd.chapters hcl
        (countP_id_le_one itemId (sentencesOf sd.chapters) hnodup)
    · rw [hdel]
      exact skeleton_delFirstChapter itemId cid sd.chapters
  · intro habs
    have hft : findDeleteTarget sd itemId cid = none := by
      unfold findDeleteTarget
      cases hf : (sentencesOf sd.chapters).find? (fun s => decide (s.id = itemId)) with
      | none => rfl
      | some s =>
        dsimp only
        apply List.find?_eq_none.mpr
        intro c hc
        have hs : s ∈ sentencesOf sd.chapters := List.mem_of_find?_eq_some hf
        simpa using habs s hs c hc
    unfold deleteComment
    rw [hft]
    dsimp only
    rw [delFirstChapter_id itemId cid sd.chapters habs]

/-- The group comment instance of `wStory` in sentence 1. -/
def wC1 : CommentObject :=
  { id := "c1", text := "hello", type := CommentType.group, timestamp := 10,
    groupId := some "G", appliesToSentenceNumbers := some [1, 2] }

/-- The single comment of `wStory`. -/
def wC3 : CommentObject :=
  { id := "c3", text := "solo", type := CommentType.single, timestamp := 11,
    groupId := none, appliesToSentenceNumbers := none }

theorem c4_delete_teardown_witness :
    (¬ wC3.groupId = some "G") ∧
    allComments (deleteComment wStory "ch1-s1" "c3") =
      (allComments wStory).filter (fun c => decide (c.id ≠ "c3")) ∧
    deleteComment wStory "ch1-s1" "nope" = wStory := by
  have h := c4_delete_teardown wStory "ch1-s1" "c1"
  have h3 := c4_delete_teardown wStory "ch1-s1" "c3"
  have hno := c4_delete_teardown wStory "ch1-s1" "nope"
  refine ⟨?_, ?_, ?_⟩
  · exact h.1 wC1 (by decide) (by decide) "G" (by decide) (by decide) wC3 (by decide)
  · exact (h3.2.1 wC3 (by decide) (by decide) (by decide) (by decide)).1
  · exact hno.2.2 (by decide)

/-! ## Single edit: exact characterization (dispatch by supplied group id) -/

theorem map_updC_id (cid tt : String) (now : Int) (l : List CommentObject)
    (h : ∀ c ∈ l, c.id ≠ cid) : l.map (updC cid tt now) = l := by
  have heq : ∀ c ∈ l, updC cid tt now c = id c := by
    intro c hc
    unfold updC
    rw [if_neg (h c hc)]
    rfl
  rw [List.map_congr_left heq, List.map_id]

theorem no_cid_comments_of_no_hasCid (cid : String) (l : List AnalysisItem)
    (h : ∀ s ∈ l, ¬ s.comments.any (fun c => decide (c.id = cid)) = true) :
    ∀ c ∈ commentsOfSentences l, c.id ≠ cid := by
  intro c hc hid
  rcases mem_commentsOfSentences.mp hc with ⟨s, hs, hcs⟩
  exact h s hs (List.any_eq_true.mpr ⟨c, hcs, by simpa using hid⟩)

theorem updFirstSentence_flatten (cid tt : String) (now : Int)
    (ss : List AnalysisItem)
    (hone : ss.countP (fun s => s.comments.any (fun c => decide (c.id = cid))) ≤ 1) :
    commentsOfSentences (updFirstSentence cid tt now ss) =
      (commentsOfSentences ss).map (updC cid tt now) := by
  induction ss with
  | nil => rfl
  | cons s rest ih =>
    unfold updFirstSentence
    rw [commentsOfSentences_cons, List.map_append]
    by_cases hs : s.comments.any (fun c => decide (c.id = cid)) = true
    · rw [if_pos hs, commentsOfSentences_cons]
      have hzero : rest.countP (fun s => s.comments.any (fun c => decide (c.id = cid))) = 0 := by
        rw [List.countP_cons_of_pos _ _ (by simpa using hs)] at hone
        omega
      have hnone : ∀ t ∈ rest, ¬ t.comments.any (fun c => decide (c.id = cid)) = true := by
        intro t ht
        have := List.countP_eq_zero.mp hzero t ht
        simpa using this
      rw [map_updC_id cid tt now _ (no_cid_comments_of_no_hasCid cid rest hnone)]
    · rw [if_neg hs, commentsOfSentences_cons]
      have hhead : ∀ c ∈ s.comments, c.id ≠ cid := by
        intro c hc hid
        exact hs (List.any_eq_true.mpr ⟨c, hc, by simpa using hid⟩)
      rw [map_updC_id cid tt now _ hhead]
      have hone' : rest.countP (fun s => s.comments.any (fun c => decide (c.id = cid))) ≤ 1 := by
        rw [List.countP_cons] at hone
        omega
      rw [ih hone']

theorem editSingleChapters_flatten (cid tt : String) (now : Int)
    (m : List (Int × List AnalysisItem))
    (hone : (sentencesOf m).countP
        (fun s => s.comments.any (fun c => decide (c.id = cid))) ≤ 1) :
    chComments (editSingleChapters cid tt now m) =
      (chComments m).map (updC cid tt now) := by
  induction m with
  | nil => rfl
  | cons p rest ih =>
    rcases p with ⟨cn, ss⟩
    unfold editSingleChapters
    have hcnt : ss.countP (fun s => s.comments.any (fun c => decide (c.id = cid))) +
        (sentencesOf rest).countP (fun s => s.comments.any (fun c => decide (c.id = cid))) ≤ 1 := by
      have := hone
      rw [sentencesOf_cons, List.countP_append] at this
      exact this
    by_cases hs : ss.any (fun s => s.comments.any (fun c => decide (c.id = cid))) = true
    · rw [if_pos hs]
      unfold chComments
      rw [sentencesOf_cons, sentencesOf_cons, commentsOfSentences_append,
        commentsOfSentences_append, List.map_append]
      have hpos : 1 ≤ ss.countP (fun s => s.comments.any (fun c => decide (c.id = cid))) := by
        rcases List.any_eq_true.mp hs with ⟨s, hsmem, hsid⟩
        calc 1 = [s].countP (fun s => s.comments.any (fun c => decide (c.id = cid))) := by
              simp [List.countP_cons, hsid]
          _ ≤ ss.countP (fun s => s.comments.any (fun c => decide (c.id = cid))) :=
              List.Sublist.countP_le _ ((List.singleton_sublist).mpr hsmem)
      have hrest0 : (sentencesOf rest).countP
          (fun s => s.comments.any (fun c => decide (c.id = cid))) = 0 := by omega
      have hnone : ∀ t ∈ sentencesOf rest,
          ¬ t.comments.any (fun c => decide (c.id = cid)) = true := by
        intro t ht
        have := List.countP_eq_zero.mp hrest0 t ht
        simpa using this
      rw [map_updC_id cid tt now _ (no_cid_comments_of_no_hasCid cid _ hnone),
        updFirstSentence_flatten cid tt now ss (by omega)]
    · rw [if_neg hs]
      unfold chComments
      rw [sentencesOf_cons, sentencesOf_cons, commentsOfSentences_append,
        commentsOfSentences_append, List.map_append]
      have hnoss : ∀ t ∈ ss, ¬ t.comments.any (fun c => decide (c.id = cid)) = true := by
        intro t ht htrue
        exact hs (List.any_eq_true.mpr ⟨t, ht, htrue⟩)
      rw [map_updC_id cid tt now _ (no_cid_comments_of_no_hasCid cid ss hnoss)]
      have := ih (by omega)
      unfold chComments at this
      rw [this]

/-- **C9** (implicit). Edit dispatch is driven by the supplied group id, not
the stored kind: invoking the edit without a group id — even on a comment
that is `group`-kind — rewrites exactly the comments with that comment id
(which live in the single sentence containing the id), and every other
comment, including the sibling instances sharing the target's group id, is
left unchanged. -/
theorem c9_single_edit_ignores_group (sd : ProcessedStoryData) (cid : String)
    (tx : String) (now : Int)
    (hblank : jsTrim tx ≠ "")
    (hone : (sentencesOf sd.chapters).countP
        (fun s => s.comments.any (fun c => decide (c.id = cid))) ≤ 1)
    (_hgroup : ∃ c0 ∈ allComments sd,
        c0.id = cid ∧ c0.type = CommentType.group ∧ c0.groupId ≠ none) :
    allComments (editComment sd cid none tx now) =
      (allComments sd).map (updC cid (jsTrim tx) now) ∧
    ∀ c ∈ allComments sd, c.id ≠ cid →
      c ∈ allComments (editComment sd cid none tx now) := by
  have hdel : editComment sd cid none tx now =
      { sd with chapters := editSingleChapters cid (jsTrim tx) now sd.chapters } := by
    unfold editComment
    rw [if_neg hblank]
  have hmap : allComments (editComment sd cid none tx now) =
      (allComments sd).map (updC cid (jsTrim tx) now) := by
    rw [hdel]
    exact editSingleChapters_flatten cid (jsTrim tx) now sd.chapters hone
  refine ⟨hmap, ?_⟩
  intro c hc hnot
  rw [hmap]
  have : updC cid (jsTrim tx) now c = c := by
    unfold updC
    rw [if_neg hnot]
  exact this ▸ List.mem_map.mpr ⟨c, hc, rfl⟩

theorem c9_single_edit_ignores_group_witness :
    allComments (editComment wStory "c1" none "changed" 30) =
      (allComments wStory).map (updC "c1" (jsTrim "changed") 30) :=
  (c9_single_edit_ignores_group wStory "c1" "changed" 30
    (by decide) (by decide) (by decide)).1

/-! ## Edit with an absent comment id -/

theorem chapters_map_sentences_id (m : List (Int × List AnalysisItem))
    (f : AnalysisItem → AnalysisItem) (h : ∀ s ∈ sentencesOf m, f s = s) :
    m.map (fun p => (p.1, p.2.map f)) = m := by
  induction m with
  | nil => rfl
  | cons p rest ih =>
    have hp : p.2.map f = p.2 := by
      have : ∀ s ∈ p.2, f s = id s := by
        intro s hs
        exact h s (by rw [sentencesOf_cons]; exact List.mem_append.mpr (Or.inl hs))
      rw [List.map_congr_left this, List.map_id]
    have hrest : ∀ s ∈ sentencesOf rest, f s = s := by
      intro s hs
      exact h s (by rw [sentencesOf_cons]; exact List.mem_append.mpr (Or.inr hs))
    rw [List.map_cons, hp, ih hrest]

theorem editSingleChapters_id (cid tt : String) (now : Int)
    (m : List (Int × List AnalysisItem))
    (h : ∀ c ∈ chComments m, c.id ≠ cid) :
    editSingleChapters cid tt now m = m := by
  induction m with
  | nil => rfl
  | cons p rest ih =>
    rcases p with ⟨cn, ss⟩
    unfold editSingleChapters
    by_cases hs : ss.any (fun s => s.comments.any (fun c => decide (c.id = cid))) = true
    · exfalso
      rcases List.any_eq_true.mp hs with ⟨s, hsm, hsc⟩
      rcases List.any_eq_true.mp hsc with ⟨c, hcm, hcc⟩
      have hcid : c.id = cid := by simpa using hcc
      have : c ∈ chComments ((cn, ss) :: rest) := by
        unfold chComments
        rw [sentencesOf_cons, commentsOfSentences_append]
        exact List.mem_append.mpr (Or.inl (mem_commentsOfSentences.mpr ⟨s, hsm, hcm⟩))
      exact h c this hcid
    · rw [if_neg hs]
      have hrest : ∀ c ∈ chComments rest, c.id ≠ cid := by
        intro c hc
        apply h c
        unfold chComments at hc ⊢
        rw [sentencesOf_cons, commentsOfSentences_append]
        exact List.mem_append.mpr (Or.inr hc)
      rw [ih hrest]

/-- **C7** (amended). Edit with an absent comment id is a silent no-op, not
a signalled failure: when no comment carries the id and no group id is
supplied (or a supplied group id matches no comment) the operation returns
the container unchanged; the operation has no error channel at all. -/
theorem c7_edit_absent_id_noop (sd : ProcessedStoryData) (cid : String)
    (tx : String) (now : Int)
    (habs : ∀ c ∈ allComments sd, c.id ≠ cid) :
    editComment sd cid none tx now = sd ∧
    (∀ g, (∀ c ∈ allComments sd, c.groupId ≠ some g) →
      editComment sd cid (some g) tx now = sd) := by
  constructor
  · by_cases ht : jsTrim tx = ""
    · unfold editComment
      rw [if_pos ht]
    · unfold editComment
      rw [if_neg ht, editSingleChapters_id cid (jsTrim tx) now sd.chapters habs]
  · intro g hg
    by_cases ht : jsTrim tx = ""
    · unfold editComment
      rw [if_pos ht]
    · unfold editComment
      rw [if_neg ht]
      dsimp only
      have heach : ∀ s ∈ sentencesOf sd.chapters,
          editGroupSentence cid g (jsTrim tx) now s = s := by
        intro s hs
        rw [editGroupSentence_eq]
        have hid : ∀ c ∈ s.comments, updG g (jsTrim tx) now c = id c := by
          intro c hc
          have : c.groupId ≠ some g := by
            apply hg c
            exact mem_commentsOfSentences.mpr ⟨s, hs, hc⟩
          unfold updG
          rw [if_neg this]
          rfl
        rw [List.map_congr_left hid, List.map_id]
      rw [chapters_map_sentences_id sd.chapters _ heach]

theorem c7_counterexample_silent_noop :
    editComment wStory "missing-id" none "txt" 99 = wStory ∧
    (∀ c ∈ allComments wStory, c.id ≠ "missing-id") :=
  ⟨by decide, by decide⟩

theorem c7_edit_absent_id_noop_witness :
    editComment wStory "missing-id" (some "no-such-group") "txt" 99 = wStory :=
  (c7_edit_absent_id_noop wStory "missing-id" "txt" 99 (by decide)).2
    "no-such-group" (by decide)

/-! ## Group bulk addition: exact characterization -/

theorem skeleton_appendToItem (tid : String) (nc : CommentObject)
    (ss : List AnalysisItem) :
    (appendToItem tid nc ss).map stripComments = ss.map stripComments := by
  induction ss with
  | nil => rfl
  | cons s rest ih =>
    unfold appendToItem
    by_cases hs : s.id = tid
    · rw [if_pos hs]
      simp only [List.map_cons]
      exact congrArg _ rfl
    · rw [if_neg hs]
      simp only [List.map_cons, ih]

theorem skeleton_appendFirstChapter (tid : String) (nc : CommentObject)
    (m : List (Int × List AnalysisItem)) :
    (sentencesOf (appendFirstChapter tid nc m)).map stripComments =
      (sentencesOf m).map stripComments := by
  induction m with
  | nil => rfl
  | cons p rest ih =>
    rcases p with ⟨cn, ss⟩
    unfold appendFirstChapter
    by_cases hs : ss.any (fun s => decide (s.id = tid)) = true
    · rw [if_pos hs, sentencesOf_cons, sentencesOf_cons, List.map_append,
        List.map_append, skeleton_appendToItem]
    · rw [if_neg hs, sentencesOf_cons, sentencesOf_cons, List.map_append,
        List.map_append, ih]

theorem ids_eq_of_skeleton (l1 l2 : List AnalysisItem)
    (h : l1.map stripComments = l2.map stripComments) :
    l1.map AnalysisItem.id = l2.map AnalysisItem.id := by
  have h2 := congrArg (List.map AnalysisItem.id) h
  rw [List.map_map, List.map_map] at h2
  exact h2

theorem appendToItem_eq_map (tid : String) (nc : CommentObject)
    (ss : List AnalysisItem)
    (hone : ss.countP (fun s => decide (s.id = tid)) ≤ 1) :
    appendToItem tid nc ss =
      ss.map (fun s => if s.id = tid then { s with comments := s.comments ++ [nc] } else s) := by
  induction ss with
  | nil => rfl
  | cons s rest ih =>
    unfold appendToItem
    by_cases hs : s.id = tid
    · rw [if_pos hs, List.map_cons, if_pos hs]
      congr 1
      have hzero : rest.countP (fun s => decide (s.id = tid)) = 0 := by
        rw [List.countP_cons_of_pos _ _ (by simpa using hs)] at hone
        omega
      have hid : ∀ t ∈ rest,
          (if t.id = tid then { t with comments := t.comments ++ [nc] } else t) = id t := by
        intro t ht
        have : t.id ≠ tid := by simpa using List.countP_eq_zero.mp hzero t ht
        rw [if_neg this]
        rfl
      rw [List.map_congr_left hid, List.map_id]
    · rw [if_neg hs, List.map_cons, if_neg hs]
      congr 1
      exact ih (by rw [List.countP_cons] at hone; omega)

theorem appendFirstChapter_eq_map (tid : String) (nc : CommentObject)
    (m : List (Int × List AnalysisItem))
    (hone : (sentencesOf m).countP (fun s => decide (s.id = tid)) ≤ 1) :
    appendFirstChapter tid nc m =
      m.map (fun p => (p.1, p.2.map
        (fun s => if s.id = tid then { s with comments := s.comments ++ [nc] } else s))) := by
  induction m with
  | nil => rfl
  | cons p rest ih =>
    rcases p with ⟨cn, ss⟩
    have hcnt : ss.countP (fun s => decide (s.id = tid)) +
        (sentencesOf rest).countP (fun s => decide (s.id = tid)) ≤ 1 := by
      have := hone
      rw [sentencesOf_cons, List.countP_append] at this
      exact this
    unfold appendFirstChapter
    by_cases hs : ss.any (fun s => decide (s.id = tid)) = true
    · rw [if_pos hs, List.map_cons]
      have hpos : 1 ≤ ss.countP (fun s => decide (s.id = tid)) := by
        rcases List.any_eq_true.mp hs with ⟨s, hsmem, hsid⟩
        calc 1 = [s].countP (fun s => decide (s.id = tid)) := by
              simp [List.countP_cons, hsid]
          _ ≤ ss.countP (fun s => decide (s.id = tid)) :=
              List.Sublist.countP_le _ ((List.singleton_sublist).mpr hsmem)
      have hrest0 : (sentencesOf rest).countP (fun s => decide (s.id = tid)) = 0 := by
        omega
      have hnone : ∀ t ∈ sentencesOf rest,
          (fun s => if s.id = tid then { s with comments := s.comments ++ [nc] } else s) t = t := by
        intro t ht
        have : t.id ≠ tid := by simpa using List.countP_eq_zero.mp hrest0 t ht
        simp only [if_neg this]
      refine congrArg₂ List.cons ?_ (chapters_map_sentences_id rest _ hnone).symm
      exact congrArg (fun l => ((cn : Int), l)) (appendToItem_eq_map tid nc ss (by omega))
    · rw [if_neg hs, List.map_cons]
      have hnoss : ∀ t ∈ ss,
          (fun s => if s.id = tid then { s with comments := s.comments ++ [nc] } else s) t = id t := by
        intro t ht
        have : t.id ≠ tid := by
          intro hid
          exact hs (List.any_eq_true.mpr ⟨t, ht, by simpa using hid⟩)
        simp only [if_neg this]
        rfl
      have hss : ss = ss.map
          (fun s => if s.id = tid then { s with comments := s.comments ++ [nc] } else s) := by
        rw [List.map_congr_left hnoss, List.map_id]
      rw [ih (by omega), ← hss]

theorem countP_ids_eq (l1 l2 : List AnalysisItem) (tid : String)
    (h : l1.map AnalysisItem.id = l2.map AnalysisItem.id) :
    l1.countP (fun s => decide (s.id = tid)) =
      l2.countP (fun s => decide (s.id = tid)) := by
  have e1 : l1.countP (fun s => decide (s.id = tid)) =
      (l1.map AnalysisItem.id).countP (fun x => decide (x = tid)) := by
    rw [List.countP_map]
    rfl
  have e2 : l2.countP (fun s => decide (s.id = tid)) =
      (l2.map AnalysisItem.id).countP (fun x => decide (x = tid)) := by
    rw [List.countP_map]
    rfl
  rw [e1, e2, h]

theorem bulkGo_eq_map (mk : String → CommentObject)
    (pairs : List (String × String)) (m : List (Int × List AnalysisItem))
    (hnodup : (pairs.map Prod.fst).Nodup)
    (hone : ∀ tid, (sentencesOf m).countP (fun s => decide (s.id = tid)) ≤ 1) :
    bulkGo mk pairs m = m.map (fun p => (p.1, p.2.map (fun s =>
      match pairs.find? (fun q => decide (q.1 = s.id)) with
      | some q => { s with comments := s.comments ++ [mk q.2] }
      | none => s))) := by
  induction pairs generalizing m with
  | nil =>
    exact (chapters_map_sentences_id m _ (fun s _ => rfl)).symm
  | cons q0 ps ih =>
    rcases q0 with ⟨t0, c0⟩
    rw [List.map_cons, List.nodup_cons] at hnodup
    have hskel := skeleton_appendFirstChapter t0 (mk c0) m
    have hids := ids_eq_of_skeleton _ _ hskel
    have hone' : ∀ tid, (sentencesOf (appendFirstChapter t0 (mk c0) m)).countP
        (fun s => decide (s.id = tid)) ≤ 1 := by
      intro tid
      rw [countP_ids_eq _ (sentencesOf m) tid hids]
      exact hone tid
    have hfindnone : ps.find? (fun q => decide (q.1 = t0)) = none := by
      apply List.find?_eq_none.mpr
      intro q hq hdec
      exact hnodup.1 (List.mem_map.mpr ⟨q, hq, by simpa using hdec⟩)
    show bulkGo mk ps (appendFirstChapter t0 (mk c0) m) = _
    rw [ih (appendFirstChapter t0 (mk c0) m) hnodup.2 hone',
      appendFirstChapter_eq_map t0 (mk c0) m (hone t0), List.map_map]
    apply List.map_congr_left
    intro p _
    show ((p.1, _) : Int × List AnalysisItem) = (p.1, _)
    rw [List.map_map]
    apply congrArg (fun l => ((p.1 : Int), l))
    apply List.map_congr_left
    intro s _
    simp only [Function.comp_apply]
    by_cases hs0 : s.id = t0
    · rw [if_pos hs0]
      have hps : ps.find? (fun q => decide
          (q.1 = ({ s with comments := s.comments ++ [mk c0] } : AnalysisItem).id)) = none := by
        show ps.find? (fun q => decide (q.1 = s.id)) = none
        rw [hs0]
        exact hfindnone
      have hhead : ((t0, c0) :: ps).find? (fun q => decide (q.1 = s.id)) = some (t0, c0) :=
        List.find?_cons_of_pos _ (by simpa using hs0.symm)
      rw [hps, hhead]
    · rw [if_neg hs0]
      have hhead : ((t0, c0) :: ps).find? (fun q => decide (q.1 = s.id)) =
          ps.find? (fun q => decide (q.1 = s.id)) :=
        List.find?_cons_of_neg _ (by simpa using fun h => hs0 h.symm)
      rw [hhead]

theorem groupNums_no_sentinel (m : List (Int × List AnalysisItem))
    (targets : List String)
    (h : ∀ tid ∈ targets, findSentenceNumber m tid ≠ -1) :
    groupNums m targets =
      List.insertionSort (· ≤ ·) (targets.map (findSentenceNumber m)) := by
  unfold groupNums
  congr 1
  apply List.filter_eq_self.mpr
  intro n hn
  rcases List.mem_map.mp hn with ⟨tid, htid, rfl⟩
  simpa using h tid htid

/-- **C2** (amended). Group bulk add: for a non-empty, duplicate-free set of
existing sentence ids (sentence ids unique in the container) and non-blank
text, group-mode bulk addition appends exactly one `group` comment to each
target sentence — all sharing the one generated group id, the one trimmed
text, the one timestamp and the one sentence-number list — and changes
nothing else; the shared list is the targets' sentence numbers sorted
ascending, provided no target's sentence number is the sentinel `-1` (the
code's `filter(n => n !== -1)` would drop a genuine `-1`). -/
theorem c2_group_bulk_add (sd : ProcessedStoryData) (targets : List String)
    (tx gid : String) (cids : List String) (now : Int)
    (hne : targets ≠ [])
    (hnodup : targets.Nodup)
    (hlen : targets.length ≤ cids.length)
    (hids : ((sentencesOf sd.chapters).map AnalysisItem.id).Nodup)
    (_hpresent : ∀ tid ∈ targets, ∃ s ∈ sentencesOf sd.chapters, s.id = tid)
    (hsn : ∀ tid ∈ targets, findSentenceNumber sd.chapters tid ≠ -1)
    (hblank : jsTrim tx ≠ "") :
    (addBulkComment sd EditMode.group targets tx gid cids now).title = sd.title ∧
    (addBulkComment sd EditMode.group targets tx gid cids now).chapters =
      sd.chapters.map (fun p => (p.1, p.2.map (fun s =>
        match (targets.zip cids).find? (fun q => decide (q.1 = s.id)) with
        | some q => { s with comments := s.comments ++
            [bulkComment EditMode.group tx gid (some (List.insertionSort (· ≤ ·) (targets.map (findSentenceNumber sd.chapters)))) now q.2] }
        | none => s))) ∧
    (∀ cid,
      bulkComment EditMode.group tx gid (some (List.insertionSort (· ≤ ·) (targets.map (findSentenceNumber sd.chapters)))) now cid =
        { id := cid, text := jsTrim tx, type := CommentType.group, timestamp := now,
          groupId := some gid,
          appliesToSentenceNumbers := some (List.insertionSort (· ≤ ·) (targets.map (findSentenceNumber sd.chapters))) }) := by
  have hempty : ¬ targets.isEmpty = true := by
    cases targets with
    | nil => exact absurd rfl hne
    | cons t ts => simp [List.isEmpty]
  have hmode : ¬ (EditMode.group = EditMode.single) := by decide
  have hred : addBulkComment sd EditMode.group targets tx gid cids now =
      { sd with chapters :=
          bulkGo (bulkComment EditMode.group tx gid (if EditMode.group = EditMode.group then some (groupNums sd.chapters targets) else none) now) (targets.zip cids) sd.chapters } := by
    unfold addBulkComment
    rw [if_neg hblank, if_neg hmode, if_neg hempty]
  refine ⟨by rw [hred], ?_, fun cid => rfl⟩
  rw [hred]
  show bulkGo (bulkComment EditMode.group tx gid (if EditMode.group = EditMode.group then some (groupNums sd.chapters targets) else none) now) (targets.zip cids) sd.chapters = _
  have hnums : (if EditMode.group = EditMode.group then some (groupNums sd.chapters targets) else none) =
      some (List.insertionSort (· ≤ ·) (targets.map (findSentenceNumber sd.chapters))) := by
    rw [if_pos rfl, groupNums_no_sentinel sd.chapters targets hsn]
  rw [hnums]
  apply bulkGo_eq_map
  · rw [List.map_fst_zip targets cids hlen]
    exact hnodup
  · intro tid
    exact countP_id_le_one tid (sentencesOf sd.chapters) hids

/-- A container whose single sentence carries the sentence number `-1`,
which collides with the sentinel used by the bulk-add lookup. -/
def cxItem : AnalysisItem :=
  { id := "ch1-s-1", sentence := "Neg.", chapterNumber := 1, sentenceNumber := -1,
    additionalAnalysis := [], comments := [] }

/-- Story container for the C2 counterexample. -/
def cxStory : ProcessedStoryData :=
  { title := "T", chapters := [(1, [cxItem])] }

theorem c2_group_bulk_add_counterexample :
    (allComments (addBulkComment cxStory EditMode.group ["ch1-s-1"] "note" "G9" ["n1"] 5)).map
        (fun c => c.appliesToSentenceNumbers) = [some []] ∧
    ¬ ((allComments (addBulkComment cxStory EditMode.group ["ch1-s-1"] "note" "G9" ["n1"] 5)).map
        (fun c => c.appliesToSentenceNumbers) = [some [-1]]) :=
  ⟨by decide, by decide⟩

theorem c2_group_bulk_add_witness :
    (addBulkComment wStory EditMode.group ["ch1-s1", "ch1-s2"] "w" "G7" ["k1", "k2"] 40).chapters =
      wStory.chapters.map (fun p => (p.1, p.2.map (fun s =>
        match ((["ch1-s1", "ch1-s2"] : List String).zip (["k1", "k2"] : List String)).find? (fun q => decide (q.1 = s.id)) with
        | some q => { s with comments := s.comments ++
            [bulkComment EditMode.group "w" "G7" (some (List.insertionSort (· ≤ ·) ((["ch1-s1", "ch1-s2"] : List String).map (findSentenceNumber wStory.chapters)))) 40 q.2] }
        | none => s))) :=
  (c2_group_bulk_add wStory ["ch1-s1", "ch1-s2"] "w" "G7" ["k1", "k2"] 40
    (by decide) (by decide) (by decide) (by decide) (by decide) (by decide) (by decide)).2.1

/-! ## Simple export: the latest-comment derivation -/

instance : IsTotal CommentObject tsGE :=
  ⟨fun a b => le_total b.timestamp a.timestamp⟩

instance : IsTrans CommentObject tsGE :=
  ⟨fun _ _ _ hab hbc => le_trans hbc hab⟩

theorem latestComment_max (cs : List CommentObject) (c : CommentObject)
    (h : latestComment cs = some c) :
    c ∈ cs ∧ ∀ d ∈ cs, d.timestamp ≤ c.timestamp := by
  unfold latestComment at h
  cases hs : List.insertionSort tsGE cs with
  | nil => rw [hs] at h; cases h
  | cons a rest =>
    rw [hs] at h
    have hac : a = c := by
      have : some a = some c := h
      injection this
    have hperm := List.perm_insertionSort tsGE cs
    constructor
    · have : a ∈ List.insertionSort tsGE cs := by rw [hs]; exact List.mem_cons_self a rest
      exact hac ▸ hperm.subset this
    · intro d hd
      have hd' : d ∈ List.insertionSort tsGE cs := hperm.symm.subset hd
      rw [hs] at hd'
      rcases List.mem_cons.mp hd' with rfl | hd''
      · exact hac ▸ le_refl _
      · have hsorted := List.sorted_insertionSort tsGE cs
        rw [hs] at hsorted
        have := (List.sorted_cons.mp hsorted).1 d hd''
        exact hac ▸ this

theorem latestComment_isSome (cs : List CommentObject) (hne : cs ≠ []) :
    ∃ c, latestComment cs = some c := by
  unfold latestComment
  cases hs : List.insertionSort tsGE cs with
  | nil =>
    exfalso
    have hperm := List.perm_insertionSort tsGE cs
    rw [hs] at hperm
    exact hne hperm.nil_eq.symm
  | cons a rest => exact ⟨a, rfl⟩

/-- **C8** (amended). Simple export: the export is, up to the sentence-number
reordering, the per-sentence derivation `toSimpleItem`; a sentence with no
comments gets neither legacy field; for a sentence with comments the code
picks a comment with maximal timestamp (the unique one when timestamps are
distinct) and emits its text as the legacy `comment` field when that text is
non-empty (an empty text emits nothing), and emits the applies-to field iff
that comment is `group`-kind, its sentence-number list is present, and the
list's comma-join is non-empty; in particular, of two comments timestamped
`t1 < t2` only the `t2` comment's text is emitted. -/
theorem c8_simple_export_latest (sd : ProcessedStoryData) :
    List.Perm (exportSimple sd) ((sentencesOf sd.chapters).map toSimpleItem) ∧
    (∀ item : AnalysisItem, item.comments = [] →
      (toSimpleItem item).comment = none ∧ (toSimpleItem item).commentAppliesTo = none) ∧
    (∀ item : AnalysisItem, ∀ c, latestComment item.comments = some c →
      (c ∈ item.comments ∧ ∀ d ∈ item.comments, d.timestamp ≤ c.timestamp) ∧
      (toSimpleItem item).comment = (if c.text = "" then none else some c.text) ∧
      (toSimpleItem item).commentAppliesTo =
        (if c.type = CommentType.group then
          match c.appliesToSentenceNumbers with
          | some l => if joinComma l = "" then none else some (joinComma l)
          | none => none
        else none)) ∧
    (∀ item : AnalysisItem, ∀ c1 c2, item.comments = [c1, c2] →
      c1.timestamp < c2.timestamp →
      (toSimpleItem item).comment = (if c2.text = "" then none else some c2.text)) := by
  refine ⟨List.perm_insertionSort bySimpleOrder _, ?_, ?_, ?_⟩
  · intro item hnil
    unfold toSimpleItem legacyCommentText legacyAppliesField latestComment
    rw [hnil]
    exact ⟨rfl, rfl⟩
  · intro item c hlatest
    refine ⟨latestComment_max item.comments c hlatest, ?_, ?_⟩
    · show legacyCommentText item.comments = _
      unfold legacyCommentText
      rw [hlatest]
    · show legacyAppliesField item.comments = _
      unfold legacyAppliesField
      rw [hlatest]
  · intro item c1 c2 hcomm hlt
    have hne : item.comments ≠ [] := by rw [hcomm]; intro h; cases h
    rcases latestComment_isSome item.comments hne with ⟨c, hc⟩
    have hmax := latestComment_max item.comments c hc
    have h2mem : c2 ∈ item.comments := by
      rw [hcomm]
      exact List.mem_cons_of_mem _ (List.mem_cons_self _ _)
    have hle : c2.timestamp ≤ c.timestamp := hmax.2 c2 h2mem
    have hcc2 : c = c2 := by
      have hmem : c ∈ ([c1, c2] : List CommentObject) := hcomm ▸ hmax.1
      rcases List.mem_cons.mp hmem with hq | hmem2
      · exfalso
        rw [hq] at hle
        omega
      · rcases List.mem_cons.mp hmem2 with hq | hmem3
        · exact hq
        · cases hmem3
    show legacyCommentText item.comments = _
    unfold legacyCommentText
    rw [hc, hcc2]

/-- A group-kind comment with no `appliesToSentenceNumbers`. -/
def cx8CommentA : CommentObject :=
  { id := "a1", text := "x", type := CommentType.group, timestamp := 1,
    groupId := some "GA", appliesToSentenceNumbers := none }

/-- A comment with empty text. -/
def cx8CommentB : CommentObject :=
  { id := "b1", text := "", type := CommentType.single, timestamp := 1,
    groupId := none, appliesToSentenceNumbers := none }

/-- Sentence whose latest (and only) comment is `group`-kind but carries no
`appliesToSentenceNumbers`. -/
def cx8ItemA : AnalysisItem :=
  { id := "ch1-s1", sentence := "A.", chapterNumber := 1, sentenceNumber := 1,
    additionalAnalysis := [], comments := [cx8CommentA] }

/-- Sentence whose latest (and only) comment has empty text. -/
def cx8ItemB : AnalysisItem :=
  { id := "ch1-s2", sentence := "B.", chapterNumber := 1, sentenceNumber := 2,
    additionalAnalysis := [], comments := [cx8CommentB] }

/-- Story for the C8 counterexample. -/
def cx8Story : ProcessedStoryData :=
  { title := "T", chapters := [(1, [cx8ItemA, cx8ItemB])] }

theorem c8_simple_export_counterexample :
    (exportSimple cx8Story).map (fun r => r.commentAppliesTo) = [none, none] ∧
    (exportSimple cx8Story).map (fun r => r.comment) = [some "x", none] ∧
    (latestComment cx8ItemA.comments).map (fun c => c.type) = some CommentType.group ∧
    (latestComment cx8ItemB.comments).isSome = true :=
  ⟨by decide, by decide, by decide, by decide⟩

/-- The earlier comment of the C8 witness sentence. -/
def w8Early : CommentObject :=
  { id := "e1", text := "early", type := CommentType.single, timestamp := 1,
    groupId := none, appliesToSentenceNumbers := none }

/-- The later comment of the C8 witness sentence. -/
def w8Later : CommentObject :=
  { id := "l1", text := "later", type := CommentType.single, timestamp := 2,
    groupId := none, appliesToSentenceNumbers := none }

/-- Sentence with two comments timestamped 1 < 2 for the C8 witness. -/
def w8Item : AnalysisItem :=
  { id := "ch1-s1", sentence := "W.", chapterNumber := 1, sentenceNumber := 1,
    additionalAnalysis := [], comments := [w8Early, w8Later] }

theorem c8_simple_export_latest_witness :
    (toSimpleItem w8Item).comment = some "later" := by
  have h := (c8_simple_export_latest wStory).2.2.2 w8Item w8Early w8Later rfl (by decide)
  rw [h]
  decide

/-! ## Import validation and failure handling -/

/-- A raw entry the per-entry validation rejects: non-numeric chapter
number, non-numeric sentence number, or missing/empty sentence text. -/
def badEntry (r : RawAnalysisItem) : Prop :=
  r.chapterNum = RawNum.nonNum ∨ r.sentenceNum = RawNum.nonNum ∨
    r.sentence = none ∨ r.sentence = some ""

instance (r : RawAnalysisItem) : Decidable (badEntry r) :=
  inferInstanceAs (Decidable (_ ∨ _ ∨ _ ∨ _))

theorem processEntry_error (g : Nat → String) (now : Int) (r : RawAnalysisItem)
    (hbad : badEntry r) : ∃ e, processEntry g now r = .error e := by
  obtain ⟨sen, cn, sn, com, capp, allc, ext⟩ := r
  unfold processEntry
  rcases hbad with hb | hb | hb | hb
  · cases hb
    cases sn <;> cases sen <;> exact ⟨_, rfl⟩
  · cases hb
    cases cn <;> cases sen <;> exact ⟨_, rfl⟩
  · cases hb
    cases cn <;> cases sn <;> exact ⟨_, rfl⟩
  · cases hb
    cases cn <;> cases sn <;> exact ⟨_, rfl⟩

theorem importItems_error (g : Nat → Nat → String) (now : Int) (i : Nat)
    (items : List RawAnalysisItem) (hbad : ∃ r ∈ items, badEntry r) :
    ∃ e, importItems g now i items = .error e := by
  induction items generalizing i with
  | nil => rcases hbad with ⟨r, hr, _⟩; cases hr
  | cons r rs ih =>
    rcases hbad with ⟨r', hr', hb⟩
    rcases List.mem_cons.mp hr' with rfl | hr''
    · rcases processEntry_error (g i) now r' hb with ⟨e, he⟩
      refine ⟨e, ?_⟩
      unfold importItems
      rw [he]
    · cases hp : processEntry (g i) now r with
      | error e =>
        refine ⟨e, ?_⟩
        unfold importItems
        rw [hp]
      | ok a =>
        rcases ih (i + 1) ⟨r', hr'', hb⟩ with ⟨e, he⟩
        refine ⟨e, ?_⟩
        unfold importItems
        rw [hp, he]

/-- **C6.** Import validation: a missing or non-array sentence-entry array,
a missing complete-story block or missing/empty title, or any entry with a
non-numeric chapter number, non-numeric sentence number, or missing/empty
sentence text makes the whole import fail with a validation error, and no
story is installed — the application state is cleared. -/
theorem c6_import_validation (doc : ImportedDoc) (g : Nat → Nat → String)
    (now : Int) (st : AppState)
    (hbad : doc.analysis = AnalysisField.absent ∨
      doc.analysis = AnalysisField.notList ∨
      doc.completeStory = none ∨
      (∃ rcs, doc.completeStory = some rcs ∧ (rcs.title = none ∨ rcs.title = some "")) ∨
      (∃ items, doc.analysis = AnalysisField.list items ∧ ∃ r ∈ items, badEntry r)) :
    (∃ e, importStory doc g now = .error e) ∧
    appLoadFile st doc g now = { storyData := none, originalCompleteStory := none } := by
  have herr : ∃ e, importStory doc g now = .error e := by
    obtain ⟨an, cs⟩ := doc
    rcases hbad with hb | hb | hb | ⟨rcs, hcs, hb⟩ | ⟨items, han, hb⟩
    · have han : an = AnalysisField.absent := hb
      subst han
      exact ⟨_, rfl⟩
    · have han : an = AnalysisField.notList := hb
      subst han
      unfold importStory
      dsimp only
      cases cs with
      | none => exact ⟨_, rfl⟩
      | some rcs =>
        dsimp only
        cases htitle : rcs.title with
        | none => exact ⟨_, rfl⟩
        | some t =>
          dsimp only
          by_cases ht : t = ""
          · exact ⟨_, by rw [if_pos ht]⟩
          · exact ⟨_, by rw [if_neg ht]⟩
    · have hcs : cs = none := hb
      subst hcs
      cases an with
      | absent => exact ⟨_, rfl⟩
      | notList => exact ⟨_, rfl⟩
      | list items => exact ⟨_, rfl⟩
    · have hcs' : cs = some rcs := hcs
      subst hcs'
      cases an with
      | absent => exact ⟨_, rfl⟩
      | notList =>
        unfold importStory
        dsimp only
        rcases hb with hb | hb <;> rw [hb]
        · exact ⟨_, rfl⟩
        · exact ⟨_, by dsimp only; rw [if_pos rfl]⟩
      | list items =>
        unfold importStory
        dsimp only
        rcases hb with hb | hb <;> rw [hb]
        · exact ⟨_, rfl⟩
        · exact ⟨_, by dsimp only; rw [if_pos rfl]⟩
    · have han' : an = AnalysisField.list items := han
      subst han'
      unfold importStory
      dsimp only
      cases cs with
      | none => exact ⟨_, rfl⟩
      | some rcs =>
        dsimp only
        cases htitle : rcs.title with
        | none => exact ⟨_, rfl⟩
        | some t =>
          dsimp only
          by_cases ht : t = ""
          · exact ⟨_, by rw [if_pos ht]⟩
          · rcases importItems_error g now 0 items hb with ⟨e, he⟩
            refine ⟨e, ?_⟩
            rw [if_neg ht, he]
            rfl
  refine ⟨herr, ?_⟩
  rcases herr with ⟨e, he⟩
  unfold appLoadFile
  rw [he]

/-- **C10** (implicit). A failed import discards the previously loaded
story: whatever story was loaded before, any import failure resets both the
story container and the retained complete-story block to the empty state. -/
theorem c10_failed_import_clears_state (st : AppState) (doc : ImportedDoc)
    (g : Nat → Nat → String) (now : Int)
    (h : ∃ e, importStory doc g now = .error e) :
    appLoadFile st doc g now = { storyData := none, originalCompleteStory := none } := by
  rcases h with ⟨e, he⟩
  unfold appLoadFile
  rw [he]

/-- Generated-id supply used by concrete import witnesses. -/
def wGen : Nat → Nat → String := fun i j => "gen-" ++ toString i ++ "-" ++ toString j

/-- A document whose single entry has a non-numeric chapter number. -/
def c6Doc : ImportedDoc :=
  { analysis := AnalysisField.list
      [{ sentence := some "Hi", chapterNum := RawNum.nonNum, sentenceNum := RawNum.num 1,
         comment := none, commentAppliesTo := none, all_comments := none, extras := [] }]
    completeStory := some { title := some "T", chaptersBlob := "blob" } }

/-- A previously loaded state, used to show failures clear it. -/
def wLoadedState : AppState :=
  { storyData := some wStory,
    originalCompleteStory := some { title := some "T", chaptersBlob := "blob" } }

theorem c6_import_validation_witness :
    appLoadFile wLoadedState c6Doc wGen 5 =
      { storyData := none, originalCompleteStory := none } :=
  (c6_import_validation c6Doc wGen 5 wLoadedState
    (Or.inr (Or.inr (Or.inr (Or.inr ⟨_, rfl, ⟨_, List.mem_cons_self _ _, Or.inl rfl⟩⟩))))).2

/-- A document whose complete-story block is missing. -/
def c10Doc : ImportedDoc :=
  { analysis := AnalysisField.list [], completeStory := none }

theorem c10_failed_import_clears_state_witness :
    appLoadFile wLoadedState c10Doc wGen 5 =
      { storyData := none, originalCompleteStory := none } :=
  c10_failed_import_clears_state wLoadedState c10Doc wGen 5
    ⟨"Invalid story format: Missing required fields.", by decide⟩

/-! ## Round-trip: full export re-imports to an equivalent story -/

/-- Invariant established by a successful import (with a non-empty id supply
and a non-zero import time): non-empty sentence text, the deterministic
sentence id, and truthy comment ids and timestamps. -/
def GoodItem (it : AnalysisItem) : Prop :=
  it.sentence ≠ "" ∧ it.id = mkItemId it.chapterNumber it.sentenceNumber ∧
    ∀ c ∈ it.comments, c.id ≠ "" ∧ c.timestamp ≠ 0

/-- Decoder of an exported comment record (proof-layer inverse of
`toRawComment`). -/
def decodeRawComment (rc : RawComment) : CommentObject :=
  { id := rc.id.getD ""
    text := rc.text
    type := rc.type
    timestamp := rc.timestamp.getD 0
    groupId := rc.groupId
    appliesToSentenceNumbers := rc.appliesToSentenceNumbers }

/-- Decoder of an exported sentence record (proof-layer inverse of
`toExportRaw` on good items). -/
def decodeRawItem (r : RawAnalysisItem) : AnalysisItem :=
  { id := mkItemId (rawChapterNum r) (rawSentenceNum r)
    sentence := r.sentence.getD ""
    chapterNumber := rawChapterNum r
    sentenceNumber := rawSentenceNum r
    additionalAnalysis := r.extras.map (fun p => (p.1, p.2.display))
    comments := (r.all_comments.getD []).map decodeRawComment }

theorem decodeRawComment_toRawComment (c : CommentObject) :
    decodeRawComment (toRawComment c) = c := rfl

theorem extras_roundtrip (l : List (String × String)) :
    (l.map (fun p => (p.1, JLit.jstr p.2))).map (fun p => (p.1, p.2.display)) = l := by
  rw [List.map_map]
  have : ∀ p ∈ l, ((fun p => ((p : String × JLit).1, p.2.display)) ∘
      (fun p => ((p : String × String).1, JLit.jstr p.2))) p = id p := by
    intro p _
    rfl
  rw [List.map_congr_left this, List.map_id]

theorem map_decode_toRaw (cs : List CommentObject) :
    (cs.map toRawComment).map decodeRawComment = cs := by
  rw [List.map_map]
  have : ∀ c ∈ cs, (decodeRawComment ∘ toRawComment) c = id c := by
    intro c _
    rfl
  rw [List.map_congr_left this, List.map_id]

theorem decodeRawItem_toExportRaw (it : AnalysisItem) (hgood : GoodItem it) :
    decodeRawItem (toExportRaw it) = it := by
  unfold decodeRawItem toExportRaw rawChapterNum rawSentenceNum
  dsimp only [Option.getD]
  rw [extras_roundtrip, map_decode_toRaw, ← hgood.2.1]

theorem mapCommentsIdx_export (g : Nat → String) (now : Int)
    (cs : List CommentObject)
    (hgood : ∀ c ∈ cs, c.id ≠ "" ∧ c.timestamp ≠ 0) :
    ∀ j, mapCommentsIdx (fillComment g now) j (cs.map toRawComment) = cs := by
  induction cs with
  | nil => intro j; rfl
  | cons c rest ih =>
    intro j
    have hc := hgood c (List.mem_cons_self c rest)
    have hrest : ∀ c ∈ rest, c.id ≠ "" ∧ c.timestamp ≠ 0 :=
      fun d hd => hgood d (List.mem_cons_of_mem c hd)
    show fillComment g now j (toRawComment c) ::
        mapCommentsIdx (fillComment g now) (j + 1) (rest.map toRawComment) = c :: rest
    rw [ih hrest (j + 1)]
    have hfill : fillComment g now j (toRawComment c) = c := by
      unfold fillComment toRawComment
      dsimp only
      rw [if_neg hc.1, if_neg hc.2]
    rw [hfill]

theorem processEntry_toExportRaw (g : Nat → String) (now : Int)
    (it : AnalysisItem) (hgood : GoodItem it) :
    processEntry g now (toExportRaw it) = .ok it := by
  have hcm : mkComments g now (toExportRaw it) = it.comments := by
    unfold mkComments toExportRaw
    dsimp only
    exact mapCommentsIdx_export g now it.comments hgood.2.2 0
  unfold processEntry toExportRaw
  dsimp only
  rw [if_neg hgood.1]
  unfold toExportRaw at hcm
  rw [hcm, extras_roundtrip, ← hgood.2.1]

theorem mapCommentsIdx_good (g : Nat → String) (now : Int)
    (hg : ∀ j, g j ≠ "") (hn : now ≠ 0) :
    ∀ (cs : List RawComment) (j : Nat),
      ∀ c ∈ mapCommentsIdx (fillComment g now) j cs,
        c.id ≠ "" ∧ c.timestamp ≠ 0 := by
  intro cs
  induction cs with
  | nil => intro j c hc; cases hc
  | cons rc rest ih =>
    intro j c hc
    rcases List.mem_cons.mp hc with rfl | hc'
    · unfold fillComment
      constructor
      · dsimp only
        cases hid : rc.id with
        | none => exact hg (j + 2)
        | some s =>
          dsimp only
          by_cases hs : s = ""
          · rw [if_pos hs]; exact hg (j + 2)
          · rw [if_neg hs]; exact hs
      · dsimp only
        cases hts : rc.timestamp with
        | none => exact hn
        | some t =>
          dsimp only
          by_cases ht : t = 0
          · rw [if_pos ht]; exact hn
          · rw [if_neg ht]; exact ht
    · exact ih (j + 1) c hc'

theorem mkComments_good (g : Nat → String) (now : Int) (r : RawAnalysisItem)
    (hg : ∀ j, g j ≠ "") (hn : now ≠ 0) :
    ∀ c ∈ mkComments g now r, c.id ≠ "" ∧ c.timestamp ≠ 0 := by
  unfold mkComments
  cases hac : r.all_comments with
  | some cs =>
    dsimp only
    exact mapCommentsIdx_good g now hg hn cs 0
  | none =>
    dsimp only
    cases hcom : r.comment with
    | none => intro c hc; cases hc
    | some t =>
      dsimp only
      by_cases ht : t = ""
      · rw [if_pos ht]; intro c hc; cases hc
      · rw [if_neg ht]
        cases hap : r.commentAppliesTo with
        | none =>
          dsimp only
          intro c hc
          rcases List.mem_cons.mp hc with rfl | hc'
          · exact ⟨hg 0, hn⟩
          · cases hc'
        | some ap =>
          dsimp only
          by_cases hap' : ap = ""
          · rw [if_pos hap']
            intro c hc
            rcases List.mem_cons.mp hc with rfl | hc'
            · exact ⟨hg 0, hn⟩
            · cases hc'
          · rw [if_neg hap']
            intro c hc
            rcases List.mem_cons.mp hc with rfl | hc'
            · exact ⟨hg 0, hn⟩
            · cases hc'

theorem processEntry_good (g : Nat → String) (now : Int) (r : RawAnalysisItem)
    (a : AnalysisItem) (hg : ∀ j, g j ≠ "") (hn : now ≠ 0)
    (h : processEntry g now r = .ok a) : GoodItem a := by
  obtain ⟨sen, cn, sn, com, capp, allc, ext⟩ := r
  unfold processEntry at h
  cases cn with
  | nonNum => exact Except.noConfusion h
  | num ch =>
    cases sn with
    | nonNum => exact Except.noConfusion h
    | num snn =>
      cases sen with
      | none => exact Except.noConfusion h
      | some st =>
        dsimp only at h
        by_cases hst : st = ""
        · rw [if_pos hst] at h
          exact Except.noConfusion h
        · rw [if_neg hst] at h
          injection h with h'
          rw [← h']
          exact ⟨hst, rfl, mkComments_good g now _ hg hn⟩

theorem importItems_good (g : Nat → Nat → String) (now : Int)
    (hg : ∀ i j, g i j ≠ "") (hn : now ≠ 0) :
    ∀ (items : List RawAnalysisItem) (i : Nat) (as : List AnalysisItem),
      importItems g now i items = .ok as → ∀ a ∈ as, GoodItem a := by
  intro items
  induction items with
  | nil =>
    intro i as h a ha
    have : as = [] := by
      injection h with h'
      exact h'.symm
    subst this
    cases ha
  | cons r rs ih =>
    intro i as h a ha
    unfold importItems at h
    cases hp : processEntry (g i) now r with
    | error e => rw [hp] at h; exact Except.noConfusion h
    | ok b =>
      rw [hp] at h
      cases hrest : importItems g now (i + 1) rs with
      | error e => rw [hrest] at h; exact Except.noConfusion h
      | ok bs =>
        rw [hrest] at h
        have : as = b :: bs := by
          injection h with h'
          exact h'.symm
        subst this
        rcases List.mem_cons.mp ha with rfl | ha'
        · exact processEntry_good (g i) now r a (hg i) hn hp
        · exact ih (i + 1) bs hrest a ha'

theorem importItems_exports (g : Nat → Nat → String) (now : Int)
    (raws : List RawAnalysisItem)
    (h : ∀ r ∈ raws, ∃ it, GoodItem it ∧ r = toExportRaw it) :
    ∀ i, ∃ its, importItems g now i raws = .ok its ∧
      its.map toExportRaw = raws ∧ ∀ it ∈ its, GoodItem it := by
  induction raws with
  | nil => intro i; exact ⟨[], rfl, rfl, fun it hit => absurd hit (List.not_mem_nil it)⟩
  | cons r rs ih =>
    intro i
    rcases h r (List.mem_cons_self r rs) with ⟨it, hgood, rfl⟩
    rcases ih (fun r' hr' => h r' (List.mem_cons_of_mem _ hr')) (i + 1) with
      ⟨its, himp, hmap, hgoods⟩
    refine ⟨it :: its, ?_, ?_, ?_⟩
    · unfold importItems
      rw [processEntry_toExportRaw (g i) now it hgood, himp]
    · rw [List.map_cons, hmap]
    · intro a ha
      rcases List.mem_cons.mp ha with rfl | ha'
      · exact hgood
      · exact hgoods a ha'

theorem sentencesOf_insertChapter (m : List (Int × List AnalysisItem))
    (a : AnalysisItem) :
    List.Perm (sentencesOf (insertChapter m a)) (sentencesOf m ++ [a]) := by
  induction m with
  | nil => exact List.Perm.refl _
  | cons p rest ih =>
    rcases p with ⟨c, ss⟩
    unfold insertChapter
    by_cases hc : c = a.chapterNumber
    · rw [if_pos hc, sentencesOf_cons, sentencesOf_cons]
      rw [List.append_assoc, List.append_assoc]
      exact List.Perm.append_left ss (List.perm_append_comm.trans (List.Perm.refl _))
    · rw [if_neg hc, sentencesOf_cons, sentencesOf_cons, List.append_assoc]
      exact List.Perm.append_left ss ih

theorem sentencesOf_foldl_insertChapter (l : List AnalysisItem) :
    ∀ m, List.Perm (sentencesOf (l.foldl insertChapter m)) (sentencesOf m ++ l) := by
  induction l with
  | nil => intro m; rw [List.append_nil]; exact List.Perm.refl _
  | cons a rest ih =>
    intro m
    show List.Perm (sentencesOf (rest.foldl insertChapter (insertChapter m a))) _
    have h1 := ih (insertChapter m a)
    have h2 : List.Perm (sentencesOf (insertChapter m a) ++ rest)
        ((sentencesOf m ++ [a]) ++ rest) :=
      (sentencesOf_insertChapter m a).append_right rest
    have h3 : (sentencesOf m ++ [a]) ++ rest = sentencesOf m ++ (a :: rest) := by
      rw [List.append_assoc]
      rfl
    exact h1.trans (h2.trans (h3 ▸ List.Perm.refl _))

theorem sentencesOf_buildChapters (l : List AnalysisItem) :
    List.Perm (sentencesOf (buildChapters l)) l :=
  sentencesOf_foldl_insertChapter l []

theorem sentencesOf_sortChapters (m : List (Int × List AnalysisItem)) :
    List.Perm (sentencesOf (sortChapters m)) (sentencesOf m) := by
  induction m with
  | nil => exact List.Perm.refl _
  | cons p rest ih =>
    unfold sortChapters
    rw [List.map_cons, sentencesOf_cons, sentencesOf_cons]
    exact List.Perm.append (List.perm_insertionSort bySentenceNumber p.2) ih

theorem importStory_ok_inv (doc : ImportedDoc) (g : Nat → Nat → String)
    (now : Int) (sd : ProcessedStoryData) (rcs : RawCompleteStory)
    (h : importStory doc g now = .ok (sd, rcs)) :
    ∃ t items as, doc.analysis = AnalysisField.list items ∧
      doc.completeStory = some rcs ∧ rcs.title = some t ∧ t ≠ "" ∧
      importItems g now 0 items = .ok as ∧
      sd = { title := t, chapters := sortChapters (buildChapters as) } := by
  obtain ⟨an, cs⟩ := doc
  unfold importStory at h
  cases an with
  | absent => exact Except.noConfusion h
  | notList =>
    dsimp only at h
    cases cs with
    | none => exact Except.noConfusion h
    | some rcs' =>
      dsimp only at h
      cases htitle : rcs'.title with
      | none => rw [htitle] at h; exact Except.noConfusion h
      | some t =>
        rw [htitle] at h
        dsimp only at h
        by_cases ht : t = ""
        · rw [if_pos ht] at h; exact Except.noConfusion h
        · rw [if_neg ht] at h; exact Except.noConfusion h
  | list items =>
    dsimp only at h
    cases cs with
    | none => exact Except.noConfusion h
    | some rcs' =>
      dsimp only at h
      cases htitle : rcs'.title with
      | none => rw [htitle] at h; exact Except.noConfusion h
      | some t =>
        rw [htitle] at h
        dsimp only at h
        by_cases ht : t = ""
        · rw [if_pos ht] at h; exact Except.noConfusion h
        · rw [if_neg ht] at h
          cases himp : importItems g now 0 items with
          | error e =>
            rw [himp] at h
            exact Except.noConfusion h
          | ok as =>
            rw [himp] at h
            have hpair : ({ title := t, chapters := sortChapters (buildChapters as) }, rcs') =
                ((sd, rcs) : ProcessedStoryData × RawCompleteStory) := by
              injection h with h'
            have hsd : sd = { title := t, chapters := sortChapters (buildChapters as) } :=
              (congrArg Prod.fst hpair).symm
            have hrcs : rcs' = rcs := congrArg Prod.snd hpair
            subst hrcs
            exact ⟨t, items, as, rfl, rfl, htitle, ht, himp, hsd⟩

theorem roundtrip_export_import (doc : ImportedDoc) (g1 g2 : Nat → Nat → String)
    (now1 now2 : Int) (sd1 : ProcessedStoryData) (ocs1 : RawCompleteStory)
    (h1 : importStory doc g1 now1 = .ok (sd1, ocs1))
    (hg : ∀ i j, g1 i j ≠ "")
    (hn : now1 ≠ 0) :
    ∃ sd2 ocs2, importStory (exportFull sd1 ocs1) g2 now2 = .ok (sd2, ocs2) ∧
      sd2.title = sd1.title ∧
      ocs2 = { title := some sd1.title, chaptersBlob := ocs1.chaptersBlob } ∧
      List.Perm (sentencesOf sd2.chapters) (sentencesOf sd1.chapters) := by
  rcases importStory_ok_inv doc g1 now1 sd1 ocs1 h1 with
    ⟨t, items, as, han, hcs, htitle, ht, himp, hsd⟩
  have hgoodas : ∀ a ∈ as, GoodItem a := importItems_good g1 now1 hg hn items 0 as himp
  have hpermL : List.Perm (sentencesOf sd1.chapters) as := by
    rw [hsd]
    exact (sentencesOf_sortChapters _).trans (sentencesOf_buildChapters as)
  have hgoodL : ∀ it ∈ sentencesOf sd1.chapters, GoodItem it :=
    fun it hit => hgoodas it (hpermL.subset hit)
  have hpermF : List.Perm
      (List.insertionSort byExportOrder ((sentencesOf sd1.chapters).map toExportRaw))
      ((sentencesOf sd1.chapters).map toExportRaw) :=
    List.perm_insertionSort _ _
  have hexp : ∀ r ∈ List.insertionSort byExportOrder
      ((sentencesOf sd1.chapters).map toExportRaw),
      ∃ it, GoodItem it ∧ r = toExportRaw it := by
    intro r hr
    rcases List.mem_map.mp (hpermF.subset hr) with ⟨it, hitL, rfl⟩
    exact ⟨it, hgoodL it hitL, rfl⟩
  rcases importItems_exports g2 now2 _ hexp 0 with ⟨its, himp2, hmap2, hgood2⟩
  have htne : sd1.title ≠ "" := by
    rw [hsd]
    exact ht
  refine ⟨{ title := sd1.title, chapters := sortChapters (buildChapters its) },
    { title := some sd1.title, chaptersBlob := ocs1.chaptersBlob }, ?_, rfl, rfl, ?_⟩
  · unfold exportFull importStory
    dsimp only
    rw [if_neg htne, himp2]
    rfl
  · show List.Perm (sentencesOf (sortChapters (buildChapters its))) (sentencesOf sd1.chapters)
    have h1p : List.Perm (sentencesOf (sortChapters (buildChapters its))) its :=
      (sentencesOf_sortChapters _).trans (sentencesOf_buildChapters its)
    have hits : its = (List.insertionSort byExportOrder
        ((sentencesOf sd1.chapters).map toExportRaw)).map decodeRawItem := by
      calc its = its.map id := (List.map_id its).symm
        _ = its.map (fun it => decodeRawItem (toExportRaw it)) :=
            List.map_congr_left
              (fun it hit => (decodeRawItem_toExportRaw it (hgood2 it hit)).symm)
        _ = (its.map toExportRaw).map decodeRawItem := by rw [List.map_map]; rfl
        _ = _ := by rw [hmap2]
    have h2p : List.Perm
        ((List.insertionSort byExportOrder
          ((sentencesOf sd1.chapters).map toExportRaw)).map decodeRawItem)
        (((sentencesOf sd1.chapters).map toExportRaw).map decodeRawItem) :=
      hpermF.map decodeRawItem
    have h3 : ((sentencesOf sd1.chapters).map toExportRaw).map decodeRawItem =
        sentencesOf sd1.chapters := by
      rw [List.map_map]
      calc (sentencesOf sd1.chapters).map (decodeRawItem ∘ toExportRaw)
          = (sentencesOf sd1.chapters).map id :=
            List.map_congr_left (fun it hit => decodeRawItem_toExportRaw it (hgoodL it hit))
        _ = sentencesOf sd1.chapters := List.map_id _
    rw [h3] at h2p
    have h4 : List.Perm its (sentencesOf sd1.chapters) := by
      rw [hits]
      exact h2p
    exact h1p.trans h4

/-- **C5.** Round-trip: re-importing the full export of a successfully
imported document never fails, and yields an equivalent story — the same
title, the original complete-story block (with its title field carrying the
story title the first import extracted from it), and the same multiset of
sentence records, including sentence text, chapter and sentence numbers,
additional-analysis pairs, and full comment lists (text, kind, group
linkage, applies-to list; ids and timestamps are even preserved exactly,
because the first import already filled any that document `D` lacked). -/
theorem c5_roundtrip (doc : ImportedDoc) (g1 g2 : Nat → Nat → String)
    (now1 now2 : Int) (sd1 : ProcessedStoryData) (ocs1 : RawCompleteStory)
    (h1 : importStory doc g1 now1 = .ok (sd1, ocs1))
    (hg : ∀ i j, g1 i j ≠ "")
    (hn : now1 ≠ 0) :
    (∀ e, importStory (exportFull sd1 ocs1) g2 now2 ≠ .error e) ∧
    (∀ sd2 ocs2, importStory (exportFull sd1 ocs1) g2 now2 = .ok (sd2, ocs2) →
      sd2.title = sd1.title ∧
      ocs2 = { title := some sd1.title, chaptersBlob := ocs1.chaptersBlob } ∧
      List.Perm (sentencesOf sd2.chapters) (sentencesOf sd1.chapters)) := by
  rcases roundtrip_export_import doc g1 g2 now1 now2 sd1 ocs1 h1 hg hn with
    ⟨sd2', ocs2', hok, hti, hocs, hperm⟩
  constructor
  · intro e he
    rw [hok] at he
    exact Except.noConfusion he
  · intro sd2 ocs2 h
    rw [hok] at h
    have hpair : ((sd2', ocs2') : ProcessedStoryData × RawCompleteStory) = (sd2, ocs2) := by
      injection h with h'
    have hsd : sd2' = sd2 := congrArg Prod.fst hpair
    have hoc : ocs2' = ocs2 := congrArg Prod.snd hpair
    subst hsd
    subst hoc
    exact ⟨hti, hocs, hperm⟩

/-- Id supply for the C5 witness (`generateUniqueId` stub). -/
def c5Gen : Nat → Nat → String := fun _ _ => "g"

/-- First entry of the C5 witness document: legacy comment plus an extra
pass-through field. -/
def c5Entry1 : RawAnalysisItem :=
  { sentence := some "Hello", chapterNum := .num 1, sentenceNum := .num 2,
    comment := some "legacy note", commentAppliesTo := none, all_comments := none,
    extras := [("tone", JLit.jstr "warm")] }

/-- Comment history entry of the second C5 witness entry. -/
def c5RawComment : RawComment :=
  { id := some "k9", text := "kept", type := CommentType.group,
    timestamp := some 44, groupId := some "GG", appliesToSentenceNumbers := some [1, 2] }

/-- Second entry of the C5 witness document: full comment history. -/
def c5Entry2 : RawAnalysisItem :=
  { sentence := some "World", chapterNum := .num 1, sentenceNum := .num 1,
    comment := none, commentAppliesTo := none,
    all_comments := some [c5RawComment], extras := [] }

/-- The C5 witness document. -/
def c5Doc : ImportedDoc :=
  { analysis := AnalysisField.list [c5Entry1, c5Entry2]
    completeStory := some { title := some "T", chaptersBlob := "blob" } }

/-- The group comment of the imported C5 witness story. -/
def c5Comment1 : CommentObject :=
  { id := "k9", text := "kept", type := CommentType.group, timestamp := 44,
    groupId := some "GG", appliesToSentenceNumbers := some [1, 2] }

/-- The synthesized legacy comment of the imported C5 witness story. -/
def c5Comment2 : CommentObject :=
  { id := "g", text := "legacy note", type := CommentType.single, timestamp := 3,
    groupId := none, appliesToSentenceNumbers := none }

/-- First sentence of the imported C5 witness story. -/
def c5Item1 : AnalysisItem :=
  { id := "ch1-s1", sentence := "World", chapterNumber := 1, sentenceNumber := 1,
    additionalAnalysis := [], comments := [c5Comment1] }

/-- Second sentence of the imported C5 witness story. -/
def c5Item2 : AnalysisItem :=
  { id := "ch1-s2", sentence := "Hello", chapterNumber := 1, sentenceNumber := 2,
    additionalAnalysis := [("tone", "warm")], comments := [c5Comment2] }

/-- The story the C5 witness document imports to. -/
def c5Sd1 : ProcessedStoryData :=
  { title := "T", chapters := [(1, [c5Item1, c5Item2])] }

/-- The retained complete-story block of the C5 witness. -/
def c5Ocs1 : RawCompleteStory :=
  { title := some "T", chaptersBlob := "blob" }

theorem c5_roundtrip_witness :
    c5Sd1.title = c5Sd1.title ∧
    c5Ocs1 = { title := some c5Sd1.title, chaptersBlob := c5Ocs1.chaptersBlob } ∧
    List.Perm (sentencesOf c5Sd1.chapters) (sentencesOf c5Sd1.chapters) :=
  (c5_roundtrip c5Doc c5Gen c5Gen 3 7 c5Sd1 c5Ocs1 (by decide)
    (fun _ _ => (by decide : ("g" : String) ≠ ""))
    (by decide)).2 c5Sd1 c5Ocs1 (by decide)
